import Mathlib

/-!
Verification of the `ProductMappingProcessor` core of this repository
(`product_mapping_processor.py`): the three-phase product-code
reconciliation algorithm, its Levenshtein edit-distance fallback, the
similarity score, column-name normalization, mapping-column
identification and the data-file loader.

Modelling conventions, shared by all definitions below:
* Python strings are modelled as `List Char` (sequences of Unicode code
  points); pandas cells read with `dtype=str` are `String`, and cells of
  the data file (which is not `fillna`-ed) are `Option String`, with
  `none` standing for `NaN`.
* Python dicts built by successive insertion are modelled as association
  lists together with a last-write-wins lookup (`dlookup`).
* Real (float) arithmetic of the similarity score is modelled exactly
  over `ℚ`; the fixed threshold `0.70` is the rational `7/10`.
* The `Levenshtein` library branch of `_levenshtein_distance` is an
  optional external dependency; the embedded `levenshtein_distance` is
  the pure fallback implementation (lines 212-233 of the source).
-/

/-- Unit cost of a substitution: `cost = 0 if c1 == c2 else 1` in the
source's inner loop. -/
def cost (c d : Char) : Nat := if c = d then 0 else 1

/-- Classic Levenshtein distance over character sequences: unit-cost
insertion, deletion and substitution.  This is the textbook recurrence,
used as the specification the DP implementation is proved against. -/
def lev : List Char → List Char → Nat
  | [], ys => ys.length
  | x :: xs, [] => (x :: xs).length
  | x :: xs, y :: ys =>
      min (lev xs (y :: ys) + 1) (min (lev (x :: xs) ys + 1) (lev xs ys + cost x y))
termination_by a b => a.length + b.length
decreasing_by all_goals simp_arith

/-- One step of the source's single-row dynamic programming: the inner
`for j, c2 in enumerate(str2)` loop of `_levenshtein_distance`.  `left`
is the last value appended to `curr_row` (`curr_row[j]`), `pj :: prest`
is the not-yet-consumed part of `prev_row` (so `pj = prev_row[j]` and
`prest.headD 0 = prev_row[j+1]`). -/
def currRowTail (c1 : Char) : List Char → List Nat → Nat → List Nat
  | [], _, _ => []
  | _ :: _, [], _ => []
  | c2 :: rest2, pj :: prest, left =>
      let v := min (left + 1) (min (prest.headD 0 + 1) (pj + cost c1 c2))
      v :: currRowTail c1 rest2 prest v

/-- The outer `for i, c1 in enumerate(str1)` loop of
`_levenshtein_distance`: each iteration replaces `prev_row` by
`curr_row = [i + 1] ++ ...`. -/
def levLoop : List Char → List Char → Nat → List Nat → List Nat
  | [], _, _, prev => prev
  | c1 :: rest1, str2, i, prev =>
      levLoop rest1 str2 (i + 1) ((i + 1) :: currRowTail c1 str2 prev (i + 1))

/-- The pure fallback implementation of `_levenshtein_distance`
(source lines 212-233): empty-string shortcuts, then the single-row DP
seeded with `range(len(str2) + 1)`, returning `prev_row[-1]`. -/
def levenshtein_distance (str1 str2 : List Char) : Nat :=
  if str1 = [] then str2.length
  else if str2 = [] then str1.length
  else (levLoop str1 str2 0 (List.range (str2.length + 1))).getLastD 0

/-- Specification row for the DP invariant: the list
`[lev p acc, lev p (acc ++ take 1 b), ..., lev p (acc ++ b)]`. -/
def rowSpec (p : List Char) (acc : List Char) : List Char → List Nat
  | [] => [lev p acc]
  | y :: ys => lev p acc :: rowSpec p (acc ++ [y]) ys

/-- Similarity score as computed inside `_find_closest_match`
(source lines 268-271): `1 - distance/max_len` when `max_len > 0`,
else `0`; real arithmetic modelled over `ℚ`. -/
def similarity (a b : List Char) : ℚ :=
  let distance := levenshtein_distance a b
  let max_len := max a.length b.length
  if 0 < max_len then 1 - (distance : ℚ) / (max_len : ℚ) else 0

/-- One row of the mapping spreadsheet after column resolution and
`fillna("")` (source line 154): all four cells are plain strings. -/
structure MappingRow where
  old_code : String
  old_name : String
  new_code : String
  new_name : String
deriving DecidableEq

/-- Last-write-wins lookup in an association list: the model of a Python
dict built by successive insertion (`dict(zip(...))`, or a loop of
`d[k] = v`); a later binding of the same key overwrites an earlier one. -/
def dlookup (pairs : List (String × String)) (k : String) : Option String :=
  pairs.foldl (fun acc p => if p.1 = k then some p.2 else acc) none

/-- The dict `code_mapping = dict(zip(mapping_df[old_code_col], mapping_df[new_code_col]))`
of source lines 291-293. -/
def code_mapping (mapping : List MappingRow) (k : String) : Option String :=
  dlookup (mapping.map fun r => (r.old_code, r.new_code)) k

/-- The dict `name_mapping = dict(zip(mapping_df[old_code_col], mapping_df[new_name_col]))`
of source lines 294-296. -/
def name_mapping (mapping : List MappingRow) (k : String) : Option String :=
  dlookup (mapping.map fun r => (r.old_code, r.new_name)) k

/-- The dict `reverse_code_mapping` (source lines 316-321): `new_code → old_code`
for rows with non-empty `new_code`; the `pd.notna` conjunct is always
true after `fillna("")`. -/
def reverse_code_mapping (mapping : List MappingRow) (k : String) : Option String :=
  dlookup (mapping.filterMap fun r =>
    if r.new_code ≠ "" then some (r.new_code, r.old_code) else none) k

/-- The `for i, new_code in enumerate(new_codes)` loop of
`_find_closest_match` (source lines 264-275), tracking
`(best_match, highest_similarity)`; a candidate replaces the accumulator
only on strict improvement. -/
def bestFold (code : String) : List MappingRow → (Option String × ℚ) → (Option String × ℚ)
  | [], acc => acc
  | r :: rest, acc =>
      if r.new_code = "" then bestFold code rest acc
      else
        let sim := similarity code.data r.new_code.data
        if acc.2 < sim then bestFold code rest (some r.old_code, sim)
        else bestFold code rest acc

/-- The method `_find_closest_match` (source lines 235-280): empty-code shortcut,
candidate restriction to rows with non-empty `new_code`, 3-character
prefix pre-filter with full-table fallback, similarity fold, and the
fixed `0.70` acceptance threshold. -/
def _find_closest_match (code : String) (mapping : List MappingRow) : Option String × ℚ :=
  if code = "" then (none, 0)
  else
    let valid_mapping := mapping.filter fun r => r.new_code ≠ ""
    if valid_mapping = [] then (none, 0)
    else
      let prefix_length := min 3 code.length
      let candidates :=
        if 0 < prefix_length then
          let pfx := code.data.take prefix_length
          let prefix_matches := valid_mapping.filter fun r => pfx.isPrefixOf r.new_code.data
          if prefix_matches ≠ [] then prefix_matches else valid_mapping
        else valid_mapping
      let res := bestFold code candidates (none, 0)
      if 7 / 10 ≤ res.2 then res else (none, 0)

/-- Maximum similarity of the input code over a candidate list
(`0` for the empty list). -/
def maxSimilarity (code : String) (cands : List MappingRow) : ℚ :=
  cands.foldr (fun r m => max (similarity code.data r.new_code.data) m) 0

/-- Specification of `_find_closest_match` following the spec text: for a
non-empty code, restrict candidates to mapping rows with non-empty
`new_code` whose `new_code` starts with the input's first
`min(3, len(code))` characters, fall back to all rows with non-empty
`new_code` when the prefix filter is empty, and return the `old_code` of
the first candidate (in mapping-table iteration order) attaining the
maximum similarity iff that maximum is `≥ 0.70`, otherwise no match with
confidence `0`. -/
def findClosestMatchSpec (code : String) (mapping : List MappingRow) : Option String × ℚ :=
  if code = "" then (none, 0)
  else
    let valid := mapping.filter fun r => r.new_code ≠ ""
    let pfx := code.data.take (min 3 code.length)
    let pre := valid.filter fun r => pfx.isPrefixOf r.new_code.data
    let cands := if pre = [] then valid else pre
    let m := maxSimilarity code cands
    if 7 / 10 ≤ m then
      ((cands.find? fun r => similarity code.data r.new_code.data = m).map
        fun r => r.old_code, m)
    else (none, 0)

/-- Model of Python `str.lower()` restricted to the characters this
pipeline distinguishes: ASCII uppercase letters are lowered, the
uppercase forms of the Vietnamese letters occurring in
`_normalize_column_name`'s substitution tables map to their precomposed
lowercase forms, and every other character is unchanged. -/
def pyLower (c : Char) : Char :=
  if 'A' ≤ c ∧ c ≤ 'Z' then Char.ofNat (c.toNat + 32)
  else match c with
  | 'Đ' => 'đ' | 'Ê' => 'ê' | 'Ô' => 'ô' | 'Ư' => 'ư'
  | 'Á' => 'á' | 'À' => 'à' | 'Ả' => 'ả' | 'Ã' => 'ã' | 'Ạ' => 'ạ'
  | 'Â' => 'â' | 'Ấ' => 'ấ' | 'Ầ' => 'ầ' | 'Ẩ' => 'ẩ' | 'Ẫ' => 'ẫ' | 'Ậ' => 'ậ'
  | 'Ă' => 'ă' | 'Ắ' => 'ắ' | 'Ằ' => 'ằ' | 'Ẳ' => 'ẳ' | 'Ẵ' => 'ẵ' | 'Ặ' => 'ặ'
  | 'É' => 'é' | 'È' => 'è' | 'Ẻ' => 'ẻ' | 'Ẽ' => 'ẽ' | 'Ẹ' => 'ẹ'
  | 'Ế' => 'ế' | 'Ề' => 'ề' | 'Ể' => 'ể' | 'Ễ' => 'ễ' | 'Ệ' => 'ệ'
  | 'Í' => 'í' | 'Ì' => 'ì' | 'Ỉ' => 'ỉ' | 'Ĩ' => 'ĩ' | 'Ị' => 'ị'
  | 'Ó' => 'ó' | 'Ò' => 'ò' | 'Ỏ' => 'ỏ' | 'Õ' => 'õ' | 'Ọ' => 'ọ'
  | 'Ố' => 'ố' | 'Ồ' => 'ồ' | 'Ổ' => 'ổ' | 'Ỗ' => 'ỗ' | 'Ộ' => 'ộ'
  | 'Ơ' => 'ơ' | 'Ớ' => 'ớ' | 'Ờ' => 'ờ' | 'Ở' => 'ở' | 'Ỡ' => 'ỡ' | 'Ợ' => 'ợ'
  | 'Ú' => 'ú' | 'Ù' => 'ù' | 'Ủ' => 'ủ' | 'Ũ' => 'ũ' | 'Ụ' => 'ụ'
  | 'Ứ' => 'ứ' | 'Ừ' => 'ừ' | 'Ử' => 'ử' | 'Ữ' => 'ữ' | 'Ự' => 'ự'
  | 'Ý' => 'ý' | 'Ỳ' => 'ỳ' | 'Ỷ' => 'ỷ' | 'Ỹ' => 'ỹ' | 'Ỵ' => 'ỵ'
  | _ => c

/-- The character class `[áàảãạâấầẩẫậăắằẳẵặ]` of source line 78. -/
def aAccents : List Char :=
  ['á', 'à', 'ả', 'ã', 'ạ', 'â', 'ấ', 'ầ', 'ẩ', 'ẫ', 'ậ', 'ă', 'ắ', 'ằ', 'ẳ', 'ẵ', 'ặ']

/-- The character class `[éèẻẽẹêếềểễệ]` of source line 79. -/
def eAccents : List Char := ['é', 'è', 'ẻ', 'ẽ', 'ẹ', 'ê', 'ế', 'ề', 'ể', 'ễ', 'ệ']

/-- The character class `[íìỉĩị]` of source line 80. -/
def iAccents : List Char := ['í', 'ì', 'ỉ', 'ĩ', 'ị']

/-- The character class `[óòỏõọôốồổỗộơớờởỡợ]` of source line 81. -/
def oAccents : List Char :=
  ['ó', 'ò', 'ỏ', 'õ', 'ọ', 'ô', 'ố', 'ồ', 'ổ', 'ỗ', 'ộ', 'ơ', 'ớ', 'ờ', 'ở', 'ỡ', 'ợ']

/-- The character class `[úùủũụưứừửữự]` of source line 82. -/
def uAccents : List Char := ['ú', 'ù', 'ủ', 'ũ', 'ụ', 'ư', 'ứ', 'ừ', 'ử', 'ữ', 'ự']

/-- The character class `[ýỳỷỹỵ]` of source line 83. -/
def yAccents : List Char := ['ý', 'ỳ', 'ỷ', 'ỹ', 'ỵ']

/-- Python `str.replace(a, b)` for single-character `a`, `b`: charwise map. -/
def replaceChar (a b : Char) (s : List Char) : List Char :=
  s.map fun c => if c = a then b else c

/-- Python `re.sub(r"[class]", repl, s)` for a character class: each character in
the class is replaced by `repl`. -/
def subAccents (cls : List Char) (repl : Char) (s : List Char) : List Char :=
  s.map fun c => if c ∈ cls then repl else c

/-- Membership in `[a-z0-9]`; the final `re.sub(r"[^a-z0-9]", "", ...)` of
`_normalize_column_name` keeps exactly these characters. -/
def isLowerAlnum (c : Char) : Bool :=
  ('a' ≤ c && c ≤ 'z') || ('0' ≤ c && c ≤ '9')

/-- The method `_normalize_column_name` (source lines 70-85): lowercase, the four
single-character `replace` calls, the six accent-class substitutions, and
the final strip of everything outside `[a-z0-9]`, in source order. -/
def _normalize_column_name (name : List Char) : List Char :=
  let normalized := name.map pyLower
  let n1 := replaceChar 'đ' 'd' normalized
  let n2 := replaceChar 'ê' 'e' n1
  let n3 := replaceChar 'ô' 'o' n2
  let n4 := replaceChar 'ư' 'u' n3
  let n5 := subAccents aAccents 'a' n4
  let n6 := subAccents eAccents 'e' n5
  let n7 := subAccents iAccents 'i' n6
  let n8 := subAccents oAccents 'o' n7
  let n9 := subAccents uAccents 'u' n8
  let n10 := subAccents yAccents 'y' n9
  n10.filter isLowerAlnum

/-- String-level wrapper of `_normalize_column_name`. -/
def strNorm (s : String) : String := String.mk (_normalize_column_name s.data)

/-- Payload of the `ValueError` raised by `_identify_mapping_columns`
(source lines 137-139): the missing logical column names and the list of
available headers, modelled structurally instead of as a formatted
message. -/
structure MissingColumnsError where
  missing : List String
  available : List String
deriving DecidableEq

/-- Python truthiness of `not col` for an optional column name: `None`
and the empty string are falsy. -/
def colFalsy (o : Option String) : Bool :=
  match o with
  | none => true
  | some s => s = ""

/-- The four resolved mapping columns returned by
`_identify_mapping_columns`. -/
structure MappingCols where
  old_code : String
  old_name : String
  new_code : String
  new_name : String
deriving DecidableEq

/-- The `missing_cols` list of `_identify_mapping_columns`
(source lines 115-123), built in source order. -/
def missingColsOf (old_code_col old_name_col new_code_col new_name_col : Option String) :
    List String :=
  (if colFalsy old_code_col then ["Mã gốc"] else []) ++
  (if colFalsy old_name_col then ["Tên gốc"] else []) ++
  (if colFalsy new_code_col then ["Mã mới"] else []) ++
  (if colFalsy new_name_col then ["Tên mới"] else [])

/-- The method `_identify_mapping_columns` (source lines 107-146), parameterized by
the outcomes of the four `_find_column_by_pattern` searches; `cols` is
`df.columns`.  The branch structure mirrors the source exactly,
including the `len(df.columns) >= 4 and not missing_cols` guard of the
positional fallback. -/
def _identify_mapping_columns (cols : List String)
    (old_code_col old_name_col new_code_col new_name_col : Option String) :
    Except MissingColumnsError MappingCols :=
  let missing_cols := missingColsOf old_code_col old_name_col new_code_col new_name_col
  if missing_cols ≠ [] then
    if 4 ≤ cols.length ∧ missing_cols = [] then
      Except.ok ⟨cols.getD 0 "", cols.getD 1 "", cols.getD 2 "", cols.getD 3 ""⟩
    else
      Except.error ⟨missing_cols, cols⟩
  else
    Except.ok ⟨old_code_col.getD "", old_name_col.getD "", new_code_col.getD "",
      new_name_col.getD ""⟩

/-- Token of the tiny regex language actually used by the pattern
families of this module: literal characters joined by `\s*` or `.*`. -/
inductive RTok
  | lit (c : Char)
  | ws
  | any
deriving DecidableEq

/-- Python `\s` on the characters relevant here (the normalized strings
the regexes run on contain no whitespace at all). -/
def isPySpace (c : Char) : Bool :=
  c = ' ' || c = '\t' || c = '\n' || c = '\r' || c = '\x0b' || c = '\x0c'

/-- Matching of a token list at the start of `s`; fuel-based structural
recursion so the function kernel-evaluates. One unit of fuel is spent per
step, and each step shrinks `toks.length + s.length`, so
`toks.length + s.length + 1` fuel always suffices. -/
def matchHere : Nat → List RTok → List Char → Bool
  | 0, _, _ => false
  | _ + 1, [], _ => true
  | fuel + 1, RTok.lit c :: ts, s =>
      match s with
      | [] => false
      | x :: rest => x = c && matchHere fuel ts rest
  | fuel + 1, RTok.ws :: ts, s =>
      matchHere fuel ts s ||
        (match s with
         | [] => false
         | x :: rest => isPySpace x && matchHere fuel (RTok.ws :: ts) rest)
  | fuel + 1, RTok.any :: ts, s =>
      matchHere fuel ts s ||
        (match s with
         | [] => false
         | _ :: rest => matchHere fuel (RTok.any :: ts) rest)

/-- Search semantics of `re.search`: try a match starting at every position of `s`. -/
def searchPositions : List RTok → List Char → Bool
  | toks, [] => matchHere (toks.length + 1) toks []
  | toks, c :: rest =>
      matchHere (toks.length + (c :: rest).length + 1) toks (c :: rest) ||
        searchPositions toks rest

/-- Python `re.search(pattern, s)` for the tiny pattern language. -/
def rsearch (toks : List RTok) (s : List Char) : Bool :=
  searchPositions toks s

/-- Python `needle in hay` for strings: contiguous substring test. -/
def containsSub : List Char → List Char → Bool
  | needle, [] => needle.isEmpty
  | needle, c :: rest => needle.isPrefixOf (c :: rest) || containsSub needle rest

/-- Literal tokens of a string. -/
def lits (s : String) : List RTok := s.data.map RTok.lit

/-- A source pattern: its literal Python text (used verbatim by the
substring fallback) and its parsed token form (used by `re.search`). -/
structure Pat where
  raw : String
  toks : List RTok

/-- The family `self.old_code_patterns` (source lines 37-44). -/
def old_code_patterns : List Pat :=
  [⟨"mã\\s*gốc", lits "mã" ++ [RTok.ws] ++ lits "gốc"⟩,
   ⟨"ma\\s*goc", lits "ma" ++ [RTok.ws] ++ lits "goc"⟩,
   ⟨"old.*code", lits "old" ++ [RTok.any] ++ lits "code"⟩,
   ⟨"code.*old", lits "code" ++ [RTok.any] ++ lits "old"⟩,
   ⟨"mã\\s*cũ", lits "mã" ++ [RTok.ws] ++ lits "cũ"⟩,
   ⟨"ma\\s*cu", lits "ma" ++ [RTok.ws] ++ lits "cu"⟩]

/-- The family `self.old_name_patterns` (source lines 45-52). -/
def old_name_patterns : List Pat :=
  [⟨"tên\\s*gốc", lits "tên" ++ [RTok.ws] ++ lits "gốc"⟩,
   ⟨"ten\\s*goc", lits "ten" ++ [RTok.ws] ++ lits "goc"⟩,
   ⟨"old.*name", lits "old" ++ [RTok.any] ++ lits "name"⟩,
   ⟨"name.*old", lits "name" ++ [RTok.any] ++ lits "old"⟩,
   ⟨"tên\\s*cũ", lits "tên" ++ [RTok.ws] ++ lits "cũ"⟩,
   ⟨"ten\\s*cu", lits "ten" ++ [RTok.ws] ++ lits "cu"⟩]

/-- The family `self.new_code_patterns` (source lines 53-60). -/
def new_code_patterns : List Pat :=
  [⟨"mã\\s*mới", lits "mã" ++ [RTok.ws] ++ lits "mới"⟩,
   ⟨"ma\\s*moi", lits "ma" ++ [RTok.ws] ++ lits "moi"⟩,
   ⟨"new.*code", lits "new" ++ [RTok.any] ++ lits "code"⟩,
   ⟨"code.*new", lits "code" ++ [RTok.any] ++ lits "new"⟩,
   ⟨"mã\\s*thay", lits "mã" ++ [RTok.ws] ++ lits "thay"⟩,
   ⟨"ma\\s*thay", lits "ma" ++ [RTok.ws] ++ lits "thay"⟩]

/-- The family `self.new_name_patterns` (source lines 61-68). -/
def new_name_patterns : List Pat :=
  [⟨"tên\\s*mới", lits "tên" ++ [RTok.ws] ++ lits "mới"⟩,
   ⟨"ten\\s*moi", lits "ten" ++ [RTok.ws] ++ lits "moi"⟩,
   ⟨"new.*name", lits "new" ++ [RTok.any] ++ lits "name"⟩,
   ⟨"name.*new", lits "name" ++ [RTok.any] ++ lits "new"⟩,
   ⟨"tên\\s*thay", lits "tên" ++ [RTok.ws] ++ lits "thay"⟩,
   ⟨"ten\\s*thay", lits "ten" ++ [RTok.ws] ++ lits "thay"⟩]

/-- The extra patterns `["ma.*hang", "code"]` appended for the data-file
code column search (source line 179). -/
def code_file_patterns : List Pat :=
  old_code_patterns ++
  [⟨"ma.*hang", lits "ma" ++ [RTok.any] ++ lits "hang"⟩, ⟨"code", lits "code"⟩]

/-- The extra patterns `["ten.*hang", "name"]` appended for the data-file
name column search (source line 191). -/
def name_file_patterns : List Pat :=
  old_name_patterns ++
  [⟨"ten.*hang", lits "ten" ++ [RTok.any] ++ lits "hang"⟩, ⟨"name", lits "name"⟩]

/-- One step of building the normalized-columns dict
`{self._normalize_column_name(col): col for col in df.columns}`
(source lines 90-92): Python dict comprehension keeps the first-insertion
key order but the last value written for each key. -/
def normDictStep (acc : List (String × String)) (col : String) : List (String × String) :=
  if acc.any (fun p => p.1 = strNorm col) then
    acc.map (fun p => if p.1 = strNorm col then (strNorm col, col) else p)
  else acc ++ [(strNorm col, col)]

/-- The normalized-columns dict as an ordered association list. -/
def normDict (cols : List String) : List (String × String) :=
  cols.foldl normDictStep []

/-- Python `str.lower()` applied to a whole string. -/
def strLower (s : String) : String := String.mk (s.data.map pyLower)

/-- The method `_find_column_by_pattern` (source lines 87-105): for each pattern in
priority order, a regex search against the normalized column names in
dict order; if nothing matches, a case-insensitive literal substring
test of the raw pattern text against the raw headers; `none` if both
phases fail. -/
def _find_column_by_pattern (cols : List String) (patterns : List Pat) : Option String :=
  match patterns.findSome? (fun p =>
      (normDict cols).findSome? (fun e =>
        if rsearch p.toks e.1.data then some e.2 else none)) with
  | some c => some c
  | none =>
      patterns.findSome? (fun p =>
        cols.findSome? (fun col =>
          if containsSub (strLower p.raw).data (strLower col).data then some col else none))

/-- Pandas `df.rename(columns={src: tgt})` restricted to the header list: every
column named `src` becomes `tgt`. -/
def renameCol (src tgt : String) (cols : List String) : List String :=
  cols.map fun c => if c = src then tgt else c

/-- The optional canonicalization of the name column `"Tên hàng"` inside
`_load_data_file` (source lines 189-195): rename a pattern-matched
column if one exists, otherwise proceed unchanged. -/
def _load_name_stage (cols1 : List String) : List String :=
  if "Tên hàng" ∈ cols1 then cols1
  else
    match _find_column_by_pattern cols1 name_file_patterns with
    | some name_col => renameCol name_col "Tên hàng" cols1
    | none => cols1

/-- The column-handling part of `_load_data_file` (source lines 174-196)
on the header list: ensure the canonical code column `"Mã hàng"` exists
(pattern-based rename if absent, `ValueError` if unresolvable), then the
optional name-column stage. -/
def _load_data_file_cols (cols : List String) : Except Unit (List String) :=
  if "Mã hàng" ∈ cols then Except.ok (_load_name_stage cols)
  else
    match _find_column_by_pattern cols code_file_patterns with
    | some code_col => Except.ok (_load_name_stage (renameCol code_col "Mã hàng" cols))
    | none => Except.error ()

/-- One row of the data spreadsheet (read with `dtype=str` but not
`fillna`-ed): the code cell `"Mã hàng"` and the name cell `"Tên hàng"`;
`none` stands for `NaN`. -/
structure DataRecord where
  code : Option String
  name : Option String
deriving DecidableEq

/-- Evolving per-record state of the reconciliation: the (possibly
written-back) `"Mã hàng"`/`"Tên hàng"` cells, the helper columns
`"Mã hàng_mới"`/`"Tên hàng_mới"`, and one flag per matching phase
recording whether the record was counted by that phase. -/
structure RState where
  code : Option String
  name : Option String
  newCode : Option String
  newName : Option String
  exactM : Bool
  revM : Bool
  fuzM : Bool
deriving DecidableEq

/-- The unmatched-mask test `isna(x) | (x == "")` (source lines 323-325
and 349-351). -/
def isBlank (o : Option String) : Bool :=
  match o with
  | none => true
  | some s => s = ""

/-- Phase 1 (source lines 306-310): direct dictionary mapping of the
record's code through `code_mapping` and `name_mapping` into the helper
columns; the `exactM` flag is `notna(Mã hàng_mới)` — the code is a key
of `code_mapping` (an empty-string mapped value still counts). -/
def phase1 (mapping : List MappingRow) (r : DataRecord) : RState :=
  { code := r.code, name := r.name,
    newCode := r.code.bind (code_mapping mapping),
    newName := r.code.bind (name_mapping mapping),
    exactM := (r.code.bind (code_mapping mapping)).isSome,
    revM := false, fuzM := false }

/-- Phase 2 (source lines 315-342): for records whose `Mã hàng_mới` is
blank and whose code is a non-blank key of `reverse_code_mapping`, write
`code_mapping.get(old_code, "")` / `name_mapping.get(old_code, "")` into
the helper columns and count the record as reverse-matched. -/
def phase2 (mapping : List MappingRow) (s : RState) : RState :=
  if isBlank s.newCode then
    match s.code with
    | none => s
    | some c =>
      if c = "" then s
      else
        match reverse_code_mapping mapping c with
        | none => s
        | some old_code =>
            { s with
              newCode := some ((code_mapping mapping old_code).getD ""),
              newName := some ((name_mapping mapping old_code).getD ""),
              revM := true }
  else s

/-- Phase 3 (source lines 348-375): fuzzy match for records still blank;
`if best_match:` is Python truthiness, so both `None` and an empty
`old_code` result are rejected. -/
def phase3 (mapping : List MappingRow) (s : RState) : RState :=
  if isBlank s.newCode then
    match s.code with
    | none => s
    | some c =>
      if c = "" then s
      else
        match (_find_closest_match c mapping).1 with
        | none => s
        | some best_match =>
          if best_match = "" then s
          else
            { s with
              newCode := some ((code_mapping mapping best_match).getD ""),
              newName := some ((name_mapping mapping best_match).getD ""),
              fuzM := true }
  else s

/-- The final write-back (source lines 390-403): `Mã hàng` is overwritten
where `Mã hàng_mới` is non-NaN and non-empty; `Tên hàng` likewise, but
only when that column exists. -/
def writeBack (hasName : Bool) (s : RState) : RState :=
  let s1 :=
    match s.newCode with
    | some v => if v ≠ "" then { s with code := some v } else s
    | none => s
  if hasName then
    match s1.newName with
    | some v => if v ≠ "" then { s1 with name := some v } else s1
    | none => s1
  else s1

/-- The statistics record returned by `process_to_buffer`
(source lines 411-417). -/
structure Stats where
  matched_count : Nat
  total_count : Nat
  exact_matched_count : Nat
  reverse_matched_count : Nat
  fuzzy_matched_count : Nat
deriving DecidableEq

/-- The method `process_to_buffer` (source lines 282-421) after loading, acting on
the resolved tables: `cols` is the data-file header list (the source's
guards `"Mã hàng" in data_df.columns` and `"Tên hàng" in
data_df.columns`); each phase's row loop touches only the current row's
state, so it is a per-record map; when the code column is absent,
`matched_count` is never assigned and the final `int(matched_count)`
raises `NameError`, modelled as an error result. -/
def process_to_buffer (cols : List String) (mapping : List MappingRow)
    (records : List DataRecord) : Except Unit (List RState × Stats) :=
  if "Mã hàng" ∈ cols then
    let s1 := records.map (phase1 mapping)
    let exact_matched_count := s1.countP fun s => s.exactM
    let s2 := s1.map (phase2 mapping)
    let reverse_matched_count := s2.countP fun s => s.revM
    let s3 := s2.map (phase3 mapping)
    let fuzzy_matched_count := s3.countP fun s => s.fuzM
    let out := s3.map (writeBack (decide ("Tên hàng" ∈ cols)))
    let matched_count := exact_matched_count + reverse_matched_count + fuzzy_matched_count
    Except.ok (out, ⟨matched_count, records.length, exact_matched_count,
      reverse_matched_count, fuzzy_matched_count⟩)
  else Except.error ()

theorem lev_nil_left (ys : List Char) : lev [] ys = ys.length := by
  rw [lev]

theorem lev_nil_right (xs : List Char) : lev xs [] = xs.length := by
  cases xs <;> rw [lev]

theorem lev_cons_cons (x y : Char) (xs ys : List Char) :
    lev (x :: xs) (y :: ys) =
      min (lev xs (y :: ys) + 1) (min (lev (x :: xs) ys + 1) (lev xs ys + cost x y)) := by
  rw [lev]

theorem cost_self (c : Char) : cost c c = 0 := by simp [cost]

theorem cost_comm (c d : Char) : cost c d = cost d c := by
  simp only [cost]
  by_cases h : c = d <;> simp [h, Ne.symm, eq_comm]

theorem lev_self (a : List Char) : lev a a = 0 := by
  induction a with
  | nil => rw [lev]; rfl
  | cons x xs ih => rw [lev_cons_cons, cost_self, ih]; omega

theorem lev_symm (a b : List Char) : lev a b = lev b a := by
  generalize hn : a.length + b.length = n
  induction n using Nat.strong_induction_on generalizing a b with
  | _ n ih =>
    cases a with
    | nil => rw [lev_nil_left, lev_nil_right]
    | cons x xs =>
      cases b with
      | nil => rw [lev_nil_left, lev_nil_right]
      | cons y ys =>
        simp only [List.length_cons] at hn
        rw [lev_cons_cons, lev_cons_cons]
        rw [ih (xs.length + (y :: ys).length)
          (by simp only [List.length_cons]; omega) xs (y :: ys) rfl]
        rw [ih ((x :: xs).length + ys.length)
          (by simp only [List.length_cons]; omega) (x :: xs) ys rfl]
        rw [ih (xs.length + ys.length) (by omega) xs ys rfl]
        rw [cost_comm]
        omega

theorem lev_le_max (a b : List Char) : lev a b ≤ max a.length b.length := by
  generalize hn : a.length + b.length = n
  induction n using Nat.strong_induction_on generalizing a b with
  | _ n ih =>
    cases a with
    | nil => rw [lev_nil_left]; omega
    | cons x xs =>
      cases b with
      | nil => rw [lev_nil_right]; simp
      | cons y ys =>
        simp only [List.length_cons] at hn
        rw [lev_cons_cons]
        have h3 := ih (xs.length + ys.length) (by omega) xs ys rfl
        have hc : cost x y ≤ 1 := by unfold cost; split <;> omega
        simp only [List.length_cons]
        omega

set_option maxHeartbeats 1000000 in
/-- The "snoc" recurrence of the classic Levenshtein distance: peeling the
last character of each argument.  This is the recurrence the source's
row-by-row DP actually follows. -/
theorem lev_snoc (c d : Char) (u v : List Char) :
    lev (u ++ [c]) (v ++ [d]) =
      min (lev u (v ++ [d]) + 1) (min (lev (u ++ [c]) v + 1) (lev u v + cost c d)) := by
  generalize hn : u.length + v.length = n
  induction n using Nat.strong_induction_on generalizing u v with
  | _ n ih =>
    cases u with
    | nil =>
      cases v with
      | nil =>
        simp only [List.nil_append, lev_cons_cons, lev_nil_left, lev_nil_right,
          List.length_cons, List.length_nil]
      | cons e v' =>
        simp only [List.length_cons, List.length_nil] at hn
        have ih1 := ih (List.length ([] : List Char) + v'.length)
          (by simp only [List.length_nil]; omega) [] v' rfl
        simp only [List.nil_append, List.cons_append] at ih1 ⊢
        rw [lev_cons_cons, lev_cons_cons, ih1]
        simp only [lev_nil_left, List.length_append, List.length_cons, List.length_nil]
        omega
    | cons x u' =>
      cases v with
      | nil =>
        simp only [List.length_cons, List.length_nil] at hn
        have ih1 := ih (u'.length + List.length ([] : List Char))
          (by simp only [List.length_nil]; omega) u' [] rfl
        simp only [List.nil_append, List.cons_append] at ih1 ⊢
        rw [lev_cons_cons, lev_cons_cons, ih1]
        simp only [lev_nil_left, lev_nil_right, List.length_append, List.length_cons,
          List.length_nil]
        omega
      | cons e v' =>
        simp only [List.length_cons] at hn
        have ihA := ih (u'.length + (e :: v').length)
          (by simp only [List.length_cons]; omega) u' (e :: v') rfl
        have ihB := ih ((x :: u').length + v'.length)
          (by simp only [List.length_cons]; omega) (x :: u') v' rfl
        have ihC := ih (u'.length + v'.length) (by omega) u' v' rfl
        simp only [List.cons_append] at ihA ihB ihC ⊢
        simp only [lev_cons_cons]
        rw [ihA, ihB, ihC]
        generalize lev u' (e :: (v' ++ [d])) = a1
        generalize lev (u' ++ [c]) (e :: v') = a2
        generalize lev u' (e :: v') = a3
        generalize lev (x :: u') (v' ++ [d]) = b1
        generalize lev (x :: (u' ++ [c])) v' = b2
        generalize lev (x :: u') v' = b3
        generalize lev u' (v' ++ [d]) = c1
        generalize lev (u' ++ [c]) v' = c2
        generalize lev u' v' = c3
        generalize cost x e = g1
        generalize cost c d = g2
        simp only [← min_add_add_right]
        simp only [Nat.add_assoc, Nat.add_comm, Nat.add_left_comm]
        simp only [min_assoc]
        simp only [min_comm, min_left_comm]

theorem lev_reverse (a b : List Char) : lev a.reverse b.reverse = lev a b := by
  generalize hn : a.length + b.length = n
  induction n using Nat.strong_induction_on generalizing a b with
  | _ n ih =>
    cases a with
    | nil => simp [lev_nil_left]
    | cons x xs =>
      cases b with
      | nil => simp [lev_nil_right]
      | cons y ys =>
        simp only [List.length_cons] at hn
        rw [List.reverse_cons, List.reverse_cons, lev_snoc]
        rw [show ys.reverse ++ [y] = (y :: ys).reverse from (List.reverse_cons y ys).symm,
          show xs.reverse ++ [x] = (x :: xs).reverse from (List.reverse_cons x xs).symm]
        rw [ih (xs.length + (y :: ys).length)
          (by simp only [List.length_cons]; omega) xs (y :: ys) rfl]
        rw [ih ((x :: xs).length + ys.length)
          (by simp only [List.length_cons]; omega) (x :: xs) ys rfl]
        rw [ih (xs.length + ys.length) (by omega) xs ys rfl]
        rw [lev_cons_cons]

theorem rowSpec_head_tail (q acc : List Char) (b : List Char) :
    rowSpec q acc b = lev q acc :: (rowSpec q acc b).tail := by
  cases b <;> rfl

theorem rowSpec_headD (q acc : List Char) (b : List Char) :
    (rowSpec q acc b).headD 0 = lev q acc := by
  cases b <;> rfl

theorem currRowTail_spec (c1 : Char) (p : List Char) (b : List Char) :
    ∀ acc, currRowTail c1 b (rowSpec p acc b) (lev (p ++ [c1]) acc) =
      (rowSpec (p ++ [c1]) acc b).tail := by
  induction b with
  | nil => intro acc; rfl
  | cons y ys ih =>
    intro acc
    simp only [rowSpec, currRowTail, rowSpec_headD]
    have hv : min (lev (p ++ [c1]) acc + 1)
        (min (lev p (acc ++ [y]) + 1) (lev p acc + cost c1 y)) =
        lev (p ++ [c1]) (acc ++ [y]) := by
      rw [lev_snoc]
      generalize lev p (acc ++ [y]) = w1
      generalize lev (p ++ [c1]) acc = w2
      generalize lev p acc = w3
      generalize cost c1 y = w4
      omega
    rw [hv, ih (acc ++ [y]), ← rowSpec_head_tail]
    rfl

theorem levLoop_spec (b : List Char) (a : List Char) :
    ∀ p, levLoop a b p.length (rowSpec p [] b) = rowSpec (p ++ a) [] b := by
  induction a with
  | nil => intro p; simp [levLoop]
  | cons c1 rest ih =>
    intro p
    simp only [levLoop]
    have h1 : p.length + 1 = lev (p ++ [c1]) [] := by
      rw [lev_nil_right]; simp
    have h2 : (p.length + 1) :: currRowTail c1 b (rowSpec p [] b) (p.length + 1) =
        rowSpec (p ++ [c1]) [] b := by
      rw [h1, currRowTail_spec c1 p b [], ← rowSpec_head_tail]
    rw [h2, show p.length + 1 = (p ++ [c1]).length by simp, ih (p ++ [c1])]
    simp

theorem rowSpec_nil_left (b : List Char) :
    ∀ acc : List Char, rowSpec [] acc b = List.range' acc.length (b.length + 1) := by
  induction b with
  | nil =>
    intro acc
    simp [rowSpec, lev_nil_left, List.range']
  | cons y ys ih =>
    intro acc
    simp only [rowSpec, lev_nil_left, List.length_cons]
    rw [List.range'_succ, ih (acc ++ [y])]
    simp

theorem rowSpec_getLastD (q : List Char) (b : List Char) :
    ∀ (acc : List Char) (d : Nat), (rowSpec q acc b).getLastD d = lev q (acc ++ b) := by
  induction b with
  | nil => intro acc d; simp [rowSpec]
  | cons y ys ih =>
    intro acc d
    simp only [rowSpec]
    rw [List.getLastD_cons, ih (acc ++ [y]) (lev q acc)]
    simp

/-- The fallback DP implementation agrees with the classic Levenshtein
recurrence on all inputs. -/
theorem levenshtein_distance_correct (a b : List Char) :
    levenshtein_distance a b = lev a b := by
  unfold levenshtein_distance
  by_cases ha : a = []
  · subst ha; simp [lev_nil_left]
  · rw [if_neg ha]
    by_cases hb : b = []
    · subst hb; rw [if_pos rfl, lev_nil_right]
    · rw [if_neg hb]
      have h0 : List.range (b.length + 1) = rowSpec [] [] b := by
        rw [List.range_eq_range', rowSpec_nil_left b []]
        rfl
      rw [h0, show (0 : Nat) = List.length ([] : List Char) from rfl,
        levLoop_spec b a [], rowSpec_getLastD]
      simp

/-- C6: the pure fallback `_levenshtein_distance` implementation computes
the classic Levenshtein distance (unit-cost insertion, deletion,
substitution over character sequences), and therefore satisfies
symmetry, `distance(a,a) = 0` and `distance("",b) = len(b)`. -/
theorem C6_levenshtein_fallback (a b : List Char) :
    levenshtein_distance a b = lev a b ∧
    levenshtein_distance a b = levenshtein_distance b a ∧
    levenshtein_distance a a = 0 ∧
    levenshtein_distance [] b = b.length := by
  refine ⟨levenshtein_distance_correct a b, ?_, ?_, ?_⟩
  · rw [levenshtein_distance_correct a b, levenshtein_distance_correct b a, lev_symm]
  · rw [levenshtein_distance_correct a a, lev_self]
  · simp [levenshtein_distance]

/-- C5: the similarity score equals `1 - distance/max(len a, len b)` when
the max length is positive and `0` when both strings are empty; it lies in
`[0,1]` whenever the max length is positive, and `similarity a a = 1` for
non-empty `a`. -/
theorem C5_similarity (a b : List Char) :
    (0 < max a.length b.length →
      similarity a b =
        1 - (levenshtein_distance a b : ℚ) / ((max a.length b.length : Nat) : ℚ) ∧
      0 ≤ similarity a b ∧ similarity a b ≤ 1) ∧
    (a = [] → b = [] → similarity a b = 0) ∧
    (a ≠ [] → similarity a a = 1) := by
  refine ⟨?_, ?_, ?_⟩
  · intro hm
    have hform : similarity a b =
        1 - (levenshtein_distance a b : ℚ) / ((max a.length b.length : Nat) : ℚ) := by
      unfold similarity
      rw [if_pos hm]
    refine ⟨hform, ?_, ?_⟩
    · rw [hform]
      have hd : levenshtein_distance a b ≤ max a.length b.length := by
        rw [levenshtein_distance_correct]; exact lev_le_max a b
      have hmq : (0 : ℚ) < ((max a.length b.length : Nat) : ℚ) := by
        exact_mod_cast hm
      have : (levenshtein_distance a b : ℚ) / ((max a.length b.length : Nat) : ℚ) ≤ 1 := by
        rw [div_le_one hmq]
        exact_mod_cast hd
      linarith
    · rw [hform]
      have hmq : (0 : ℚ) < ((max a.length b.length : Nat) : ℚ) := by
        exact_mod_cast hm
      have : (0 : ℚ) ≤ (levenshtein_distance a b : ℚ) / ((max a.length b.length : Nat) : ℚ) :=
        div_nonneg (by positivity) (le_of_lt hmq)
      linarith
  · intro ha hb
    subst ha; subst hb
    rfl
  · intro ha
    have hm : 0 < max a.length a.length := by
      cases a with
      | nil => exact absurd rfl ha
      | cons x xs => simp
    unfold similarity
    rw [if_pos hm]
    rw [levenshtein_distance_correct, lev_self]
    simp

/-- Witness for C5 at concrete inputs `"ab"` and `"b"`. -/
theorem C5_similarity_witness :
    (0 < max "ab".data.length "b".data.length ∧
      0 ≤ similarity "ab".data "b".data ∧ similarity "ab".data "b".data ≤ 1) ∧
    ("ab".data ≠ [] ∧ similarity "ab".data "ab".data = 1) :=
  ⟨⟨by decide, ((C5_similarity "ab".data "b".data).1 (by decide)).2⟩,
    ⟨by decide, (C5_similarity "ab".data "ab".data).2.2 (by decide)⟩⟩

theorem similarity_nonneg (a b : List Char) : 0 ≤ similarity a b := by
  simp only [similarity]
  by_cases hm : 0 < max a.length b.length
  · rw [if_pos hm]
    have hd : levenshtein_distance a b ≤ max a.length b.length := by
      rw [levenshtein_distance_correct]; exact lev_le_max a b
    have hmq : (0 : ℚ) < ((max a.length b.length : Nat) : ℚ) := by exact_mod_cast hm
    have hle : (levenshtein_distance a b : ℚ) / ((max a.length b.length : Nat) : ℚ) ≤ 1 := by
      rw [div_le_one hmq]
      exact_mod_cast hd
    linarith
  · rw [if_neg hm]

theorem string_ne_empty_pos_length (s : String) (h : s ≠ "") : 0 < s.length := by
  cases s with
  | mk data =>
    cases data with
    | nil => exact absurd rfl h
    | cons c cs => simp [String.length]

theorem maxSimilarity_nil (code : String) : maxSimilarity code [] = 0 := rfl

theorem maxSimilarity_cons (code : String) (r : MappingRow) (rest : List MappingRow) :
    maxSimilarity code (r :: rest) =
      max (similarity code.data r.new_code.data) (maxSimilarity code rest) := rfl

theorem maxSimilarity_nonneg (code : String) (l : List MappingRow) :
    0 ≤ maxSimilarity code l := by
  induction l with
  | nil => simp [maxSimilarity_nil]
  | cons r rest ih =>
    rw [maxSimilarity_cons]
    exact le_trans ih (le_max_right _ _)

/-- Behaviour of the best-candidate fold: on a list of candidates with
non-empty new codes, starting from a non-negative score `s`, it returns
the accumulator unchanged when no candidate beats `s`, and otherwise the
`old_code` of the first candidate attaining the maximum similarity,
paired with that maximum. -/
theorem bestFold_spec (code : String) (l : List MappingRow) :
    ∀ (b : Option String) (s : ℚ), 0 ≤ s → (∀ r ∈ l, r.new_code ≠ "") →
      (maxSimilarity code l ≤ s → bestFold code l (b, s) = (b, s)) ∧
      (s < maxSimilarity code l →
        ∃ r, (l.find? fun r => similarity code.data r.new_code.data = maxSimilarity code l) =
            some r ∧
          bestFold code l (b, s) = (some r.old_code, maxSimilarity code l)) := by
  induction l with
  | nil =>
    intro b s hs _
    constructor
    · intro _; rfl
    · intro h
      rw [maxSimilarity_nil] at h
      exact absurd h (not_lt.mpr hs)
  | cons r rest ih =>
    intro b s hs hall
    have hr : r.new_code ≠ "" := hall r (by simp)
    have hrest : ∀ x ∈ rest, x.new_code ≠ "" := fun x hx => hall x (by simp [hx])
    have hσ0 : 0 ≤ similarity code.data r.new_code.data := similarity_nonneg _ _
    have hstep : bestFold code (r :: rest) (b, s) =
        if s < similarity code.data r.new_code.data then
          bestFold code rest (some r.old_code, similarity code.data r.new_code.data)
        else bestFold code rest (b, s) := by
      simp only [bestFold, if_neg hr]
    rw [maxSimilarity_cons]
    by_cases hcase : s < similarity code.data r.new_code.data
    · rw [hstep, if_pos hcase]
      by_cases h2 : maxSimilarity code rest ≤ similarity code.data r.new_code.data
      · have h1 := (ih (some r.old_code) (similarity code.data r.new_code.data) hσ0 hrest).1 h2
        constructor
        · intro hM
          exact absurd hcase (not_lt.mpr (le_trans (le_max_left _ _) hM))
        · intro hM
          rw [max_eq_left h2]
          refine ⟨r, ?_, ?_⟩
          · exact List.find?_cons_of_pos rest (by simp)
          · rw [h1]
      · push_neg at h2
        obtain ⟨r', hfind, hfold⟩ :=
          (ih (some r.old_code) (similarity code.data r.new_code.data) hσ0 hrest).2 h2
        constructor
        · intro hM
          have : maxSimilarity code rest ≤ s := le_trans (le_max_right _ _) hM
          linarith
        · intro hM
          rw [max_eq_right (le_of_lt h2)]
          refine ⟨r', ?_, ?_⟩
          · rw [List.find?_cons_of_neg rest (by simp; exact ne_of_lt h2), hfind]
          · rw [hfold]
    · rw [hstep, if_neg hcase]
      push_neg at hcase
      constructor
      · intro hM
        exact (ih b s hs hrest).1 (le_trans (le_max_right _ _) hM)
      · intro hM
        have hM' : s < maxSimilarity code rest := by
          by_contra h
          push_neg at h
          exact absurd hM (not_lt.mpr (max_le hcase h))
        obtain ⟨r', hfind, hfold⟩ := (ih b s hs hrest).2 hM'
        have hne : similarity code.data r.new_code.data ≠ maxSimilarity code rest :=
          ne_of_lt (lt_of_le_of_lt hcase hM')
        rw [max_eq_right (le_trans hcase (le_of_lt hM'))]
        refine ⟨r', ?_, ?_⟩
        · rw [List.find?_cons_of_neg rest (by simp; exact hne), hfind]
        · exact hfold

/-- The threshold test over the fold result equals the spec-side
first-argmax description, for any candidate list with non-empty new
codes. -/
theorem closest_core (code : String) (cands : List MappingRow)
    (hall : ∀ r ∈ cands, r.new_code ≠ "") :
    (if 7 / 10 ≤ (bestFold code cands (none, 0)).2 then bestFold code cands (none, 0)
     else (none, 0)) =
    (if 7 / 10 ≤ maxSimilarity code cands then
      ((cands.find? fun r =>
          similarity code.data r.new_code.data = maxSimilarity code cands).map
        fun r => r.old_code, maxSimilarity code cands)
     else (none, 0)) := by
  have h := bestFold_spec code cands none 0 le_rfl hall
  by_cases hM : maxSimilarity code cands ≤ 0
  · have h0 : maxSimilarity code cands = 0 := le_antisymm hM (maxSimilarity_nonneg _ _)
    rw [h.1 hM, h0]
    norm_num
  · push_neg at hM
    obtain ⟨r, hfind, hfold⟩ := h.2 hM
    rw [hfold, hfind]
    by_cases ht : 7 / 10 ≤ maxSimilarity code cands
    · rw [if_pos ht, if_pos ht]
      rfl
    · rw [if_neg ht, if_neg ht]

/-- C3: for every non-empty input code, `_find_closest_match` restricts
candidates to mapping rows with non-empty `new_code` whose `new_code`
starts with the input's first `min(3, len(code))` characters, falls back
to all rows with non-empty `new_code` when the prefix filter is empty,
and returns the `old_code` of the first candidate (in mapping-table
iteration order) attaining the maximum similarity if and only if that
maximum is `≥ 0.70`, otherwise no match with confidence `0`; stated as
an unconditional equality with the spec-side description
`findClosestMatchSpec`. -/
theorem C3_find_closest_match (code : String) (mapping : List MappingRow) :
    _find_closest_match code mapping = findClosestMatchSpec code mapping := by
  by_cases hc : code = ""
  · simp [_find_closest_match, findClosestMatchSpec, hc]
  · unfold _find_closest_match findClosestMatchSpec
    rw [if_neg hc, if_neg hc]
    dsimp only
    have hpl : 0 < min 3 code.length := by
      have := string_ne_empty_pos_length code hc
      omega
    rw [if_pos hpl]
    by_cases hv : mapping.filter (fun r => r.new_code ≠ "") = []
    · rw [if_pos hv, hv]
      simp only [List.filter_nil, ite_self, maxSimilarity_nil]
      norm_num
    · rw [if_neg hv]
      have hvalid : ∀ r ∈ mapping.filter (fun r => r.new_code ≠ ""), r.new_code ≠ "" := by
        intro r hrmem
        have := List.of_mem_filter hrmem
        simpa using this
      by_cases hp : (mapping.filter fun r => r.new_code ≠ "").filter
          (fun r => (code.data.take (min 3 code.length)).isPrefixOf r.new_code.data) = []
      · rw [if_neg (not_not_intro hp), if_pos hp]
        exact closest_core code _ hvalid
      · rw [if_pos hp, if_neg hp]
        refine closest_core code _ ?_
        intro r hrmem
        exact hvalid r (List.mem_of_mem_filter hrmem)

/-- C9: `_normalize_column_name` is a total pure function (a Lean `def`
returning a `List Char` on every input); every character of its output
lies in `[a-z0-9]`; and the known Vietnamese accented vowels — the four
`replace` characters and the six accent classes of the source — are
mapped to their unaccented base letters before the final strip, as
witnessed by evaluating the function on those very character tables. -/
theorem C9_normalize_column_name (s : List Char) :
    (∀ c ∈ _normalize_column_name s, ('a' ≤ c ∧ c ≤ 'z') ∨ ('0' ≤ c ∧ c ≤ '9')) ∧
    _normalize_column_name ['đ', 'ê', 'ô', 'ư'] = ['d', 'e', 'o', 'u'] ∧
    _normalize_column_name aAccents = List.replicate 17 'a' ∧
    _normalize_column_name eAccents = List.replicate 11 'e' ∧
    _normalize_column_name iAccents = List.replicate 5 'i' ∧
    _normalize_column_name oAccents = List.replicate 17 'o' ∧
    _normalize_column_name uAccents = List.replicate 11 'u' ∧
    _normalize_column_name yAccents = List.replicate 5 'y' := by
  refine ⟨?_, by decide, by decide, by decide, by decide, by decide, by decide, by decide⟩
  intro c hmem
  unfold _normalize_column_name at hmem
  have hkeep := List.of_mem_filter hmem
  simp only [isLowerAlnum, Bool.or_eq_true, Bool.and_eq_true, decide_eq_true_eq] at hkeep
  exact hkeep

/-- Witness for C9: the normalization of the header `"Mã hàng"` contains
the character `m`, which indeed lies in `[a-z0-9]`. -/
theorem C9_normalize_column_name_witness :
    'm' ∈ _normalize_column_name "Mã hàng".data ∧
      (('a' ≤ 'm' ∧ 'm' ≤ 'z') ∨ ('0' ≤ 'm' ∧ 'm' ≤ '9')) :=
  ⟨by decide, (C9_normalize_column_name "Mã hàng".data).1 'm' (by decide)⟩

/-- C4: whenever any of the four logical mapping columns is unresolved,
`_identify_mapping_columns` returns the missing-columns error carrying
exactly the missing logical column names and the available headers; the
positional fallback branch is dead because its guard demands the missing
list be simultaneously non-empty and empty.  Stated as a full
characterization: the result is the pattern-resolved column set when
nothing is missing and the error otherwise — the fallback result is
never produced. -/
theorem C4_identify_mapping_columns (cols : List String)
    (o1 o2 o3 o4 : Option String) :
    _identify_mapping_columns cols o1 o2 o3 o4 =
      if missingColsOf o1 o2 o3 o4 = [] then
        Except.ok ⟨o1.getD "", o2.getD "", o3.getD "", o4.getD ""⟩
      else
        Except.error ⟨missingColsOf o1 o2 o3 o4, cols⟩ := by
  unfold _identify_mapping_columns
  by_cases hm : missingColsOf o1 o2 o3 o4 = []
  · rw [if_pos hm, if_neg (not_not_intro hm)]
  · rw [if_neg hm, if_pos hm, if_neg]
    intro hand
    exact hm hand.2

theorem normDict_fold_mem (cs : List String) :
    ∀ (acc : List (String × String)) (e : String × String),
      e ∈ cs.foldl normDictStep acc → e ∈ acc ∨ (e.2 ∈ cs ∧ e.1 = strNorm e.2) := by
  induction cs with
  | nil =>
    intro acc e h
    simp only [List.foldl_nil] at h
    exact Or.inl h
  | cons col rest ih =>
    intro acc e h
    simp only [List.foldl_cons] at h
    rcases ih (normDictStep acc col) e h with hacc | hrest
    · unfold normDictStep at hacc
      by_cases hany : acc.any (fun p => p.1 = strNorm col) = true
      · rw [if_pos hany] at hacc
        rcases List.mem_map.mp hacc with ⟨x, hx, hfx⟩
        by_cases hxk : x.1 = strNorm col
        · rw [if_pos hxk] at hfx
          right
          rw [← hfx]
          exact ⟨List.mem_cons_self col rest, rfl⟩
        · rw [if_neg hxk] at hfx
          left
          rw [← hfx]
          exact hx
      · rw [if_neg hany] at hacc
        rcases List.mem_append.mp hacc with h1 | h2
        · exact Or.inl h1
        · right
          simp only [List.mem_singleton] at h2
          rw [h2]
          exact ⟨List.mem_cons_self col rest, rfl⟩
    · exact Or.inr ⟨List.mem_cons_of_mem _ hrest.1, hrest.2⟩

theorem normDict_sound (cols : List String) (e : String × String)
    (h : e ∈ normDict cols) : e.2 ∈ cols ∧ e.1 = strNorm e.2 := by
  rcases normDict_fold_mem cols [] e h with h0 | h1
  · cases h0
  · exact h1

theorem find_column_mem (cols : List String) (pats : List Pat) (c : String)
    (h : _find_column_by_pattern cols pats = some c) : c ∈ cols := by
  unfold _find_column_by_pattern at h
  cases hfs : pats.findSome? (fun p =>
      (normDict cols).findSome? (fun e =>
        if rsearch p.toks e.1.data then some e.2 else none)) with
  | some c0 =>
    rw [hfs] at h
    obtain ⟨p, hp, hinner⟩ := List.exists_of_findSome?_eq_some hfs
    obtain ⟨e, he, hee⟩ := List.exists_of_findSome?_eq_some hinner
    have hcc : c0 = c := by injection h
    by_cases hr : rsearch p.toks e.1.data = true
    · rw [if_pos hr] at hee
      have he2 : e.2 = c0 := by injection hee
      rw [← hcc, ← he2]
      exact (normDict_sound cols e he).1
    · rw [if_neg hr] at hee
      cases hee
  | none =>
    rw [hfs] at h
    dsimp only at h
    obtain ⟨p, hp, hinner⟩ := List.exists_of_findSome?_eq_some h
    obtain ⟨col, hcol, hcc⟩ := List.exists_of_findSome?_eq_some hinner
    by_cases hr : containsSub (strLower p.raw).data (strLower col).data = true
    · rw [if_pos hr] at hcc
      have : col = c := by injection hcc
      rw [← this]
      exact hcol
    · rw [if_neg hr] at hcc
      cases hcc

theorem name_search_ne_code_col (cols : List String) (c : String)
    (h : _find_column_by_pattern cols name_file_patterns = some c) : c ≠ "Mã hàng" := by
  intro hc
  subst hc
  unfold _find_column_by_pattern at h
  cases hfs : name_file_patterns.findSome? (fun p =>
      (normDict cols).findSome? (fun e =>
        if rsearch p.toks e.1.data then some e.2 else none)) with
  | some c0 =>
    rw [hfs] at h
    have hcc : c0 = "Mã hàng" := by injection h
    subst hcc
    obtain ⟨p, hp, hinner⟩ := List.exists_of_findSome?_eq_some hfs
    obtain ⟨e, he, hee⟩ := List.exists_of_findSome?_eq_some hinner
    by_cases hr : rsearch p.toks e.1.data = true
    · rw [if_pos hr] at hee
      have he2 : e.2 = "Mã hàng" := by injection hee
      have he1 : e.1 = strNorm e.2 := (normDict_sound cols e he).2
      rw [he1, he2] at hr
      have hfalse : ∀ q ∈ name_file_patterns,
          rsearch q.toks (strNorm "Mã hàng").data = false := by decide
      rw [hfalse p hp] at hr
      cases hr
    · rw [if_neg hr] at hee
      cases hee
  | none =>
    rw [hfs] at h
    dsimp only at h
    obtain ⟨p, hp, hinner⟩ := List.exists_of_findSome?_eq_some h
    obtain ⟨col, hcol, hcc⟩ := List.exists_of_findSome?_eq_some hinner
    by_cases hr : containsSub (strLower p.raw).data (strLower col).data = true
    · rw [if_pos hr] at hcc
      have : col = "Mã hàng" := by injection hcc
      rw [this] at hr
      have hfalse : ∀ q ∈ name_file_patterns,
          containsSub (strLower q.raw).data (strLower "Mã hàng").data = false := by decide
      rw [hfalse p hp] at hr
      cases hr
    · rw [if_neg hr] at hcc
      cases hcc

theorem mem_renameCol_of_ne (src tgt x : String) (cols : List String)
    (hx : x ∈ cols) (hne : x ≠ src) : x ∈ renameCol src tgt cols := by
  unfold renameCol
  exact List.mem_map.mpr ⟨x, hx, by rw [if_neg hne]⟩

theorem tgt_mem_renameCol (src tgt : String) (cols : List String) (h : src ∈ cols) :
    tgt ∈ renameCol src tgt cols := by
  unfold renameCol
  exact List.mem_map.mpr ⟨src, h, by rw [if_pos rfl]⟩

theorem name_stage_preserves_code (cols1 : List String) (h : "Mã hàng" ∈ cols1) :
    "Mã hàng" ∈ _load_name_stage cols1 := by
  unfold _load_name_stage
  by_cases ht : "Tên hàng" ∈ cols1
  · rw [if_pos ht]
    exact h
  · rw [if_neg ht]
    cases hfc : _find_column_by_pattern cols1 name_file_patterns with
    | none => exact h
    | some name_col =>
      exact mem_renameCol_of_ne _ _ _ _ h
        (Ne.symm (name_search_ne_code_col cols1 name_col hfc))

theorem load_cols_has_code (cols cols' : List String)
    (h : _load_data_file_cols cols = Except.ok cols') : "Mã hàng" ∈ cols' := by
  unfold _load_data_file_cols at h
  by_cases hm : "Mã hàng" ∈ cols
  · rw [if_pos hm] at h
    have h' : _load_name_stage cols = cols' := by injection h
    rw [← h']
    exact name_stage_preserves_code cols hm
  · rw [if_neg hm] at h
    cases hfc : _find_column_by_pattern cols code_file_patterns with
    | none =>
      rw [hfc] at h
      cases h
    | some code_col =>
      rw [hfc] at h
      have h' : _load_name_stage (renameCol code_col "Mã hàng" cols) = cols' := by injection h
      rw [← h']
      refine name_stage_preserves_code _ ?_
      exact tgt_mem_renameCol code_col "Mã hàng" cols
        (find_column_mem cols code_file_patterns code_col hfc)

theorem dlookup_foldl_eq (k : String) (ps : List (String × String)) :
    ∀ a : Option String,
      ps.foldl (fun acc p => if p.1 = k then some p.2 else acc) a =
        match dlookup ps k with
        | some v => some v
        | none => a := by
  induction ps with
  | nil => intro a; rfl
  | cons q rest ih =>
    intro a
    have hq : dlookup (q :: rest) k =
        match dlookup rest k with
        | some v => some v
        | none => if q.1 = k then some q.2 else none := by
      unfold dlookup
      simp only [List.foldl_cons]
      rw [ih (if q.1 = k then some q.2 else none)]
      rfl
    simp only [List.foldl_cons]
    rw [ih (if q.1 = k then some q.2 else a), hq]
    cases hdr : dlookup rest k with
    | some v => rfl
    | none =>
      by_cases hqk : q.1 = k
      · simp [hqk]
      · simp [hqk]

theorem dlookup_cons (k : String) (q : String × String) (ps : List (String × String)) :
    dlookup (q :: ps) k =
      match dlookup ps k with
      | some v => some v
      | none => if q.1 = k then some q.2 else none := by
  unfold dlookup
  simp only [List.foldl_cons]
  rw [dlookup_foldl_eq k ps (if q.1 = k then some q.2 else none)]
  rfl

theorem dlookup_mem (k v : String) : ∀ ps, dlookup ps k = some v → (k, v) ∈ ps := by
  intro ps
  induction ps with
  | nil => intro h; cases h
  | cons q rest ih =>
    intro h
    rw [dlookup_cons] at h
    cases hdr : dlookup rest k with
    | some w =>
      rw [hdr] at h
      have hw : w = v := by injection h
      exact List.mem_cons_of_mem q (ih (hw ▸ hdr))
    | none =>
      rw [hdr] at h
      by_cases hqk : q.1 = k
      · rw [if_pos hqk] at h
        have hv : q.2 = v := by injection h
        have : (k, v) = q := by
          rw [← hqk, ← hv]
        rw [this]
        exact List.mem_cons_self q rest
      · rw [if_neg hqk] at h
        cases h

theorem dlookup_eq_none_iff (k : String) :
    ∀ ps, dlookup ps k = none ↔ ∀ p ∈ ps, p.1 ≠ k := by
  intro ps
  induction ps with
  | nil => simp [dlookup]
  | cons q rest ih =>
    rw [dlookup_cons]
    cases hdr : dlookup rest k with
    | some w =>
      constructor
      · intro h; cases h
      · intro h
        have hmem := dlookup_mem k w rest hdr
        exact absurd rfl (h (k, w) (List.mem_cons_of_mem q hmem))
    | none =>
      have hrest : ∀ p ∈ rest, p.1 ≠ k := (ih).mp hdr
      by_cases hqk : q.1 = k
      · rw [if_pos hqk]
        constructor
        · intro h; cases h
        · intro h
          exact absurd hqk (h q (List.mem_cons_self q rest))
      · rw [if_neg hqk]
        constructor
        · intro _ p hp
          rcases List.mem_cons.mp hp with h1 | h2
          · rw [h1]; exact hqk
          · exact hrest p h2
        · intro _; rfl

theorem dlookup_isSome_of_key (k : String) (ps : List (String × String))
    (h : k ∈ ps.map Prod.fst) : (dlookup ps k).isSome := by
  cases hd : dlookup ps k with
  | some v => rfl
  | none =>
    rcases List.mem_map.mp h with ⟨p, hp, hpk⟩
    exact absurd hpk ((dlookup_eq_none_iff k ps).mp hd p hp)

theorem dlookup_nodup (k v : String) :
    ∀ ps, (ps.map Prod.fst).Nodup → (k, v) ∈ ps → dlookup ps k = some v := by
  intro ps
  induction ps with
  | nil => intro _ h; cases h
  | cons q rest ih =>
    intro hnd hmem
    rw [List.map_cons, List.nodup_cons] at hnd
    rw [dlookup_cons]
    rcases List.mem_cons.mp hmem with h1 | h2
    · have hq1 : q.1 = k := by rw [← h1]
      have hq2 : q.2 = v := by rw [← h1]
      have hnone : dlookup rest k = none := by
        cases hd : dlookup rest k with
        | none => rfl
        | some w =>
          have : (k, w) ∈ rest := dlookup_mem k w rest hd
          have : k ∈ rest.map Prod.fst := List.mem_map.mpr ⟨(k, w), this, rfl⟩
          exact absurd (hq1 ▸ this) hnd.1
      rw [hnone, if_pos hq1, hq2]
    · rw [ih hnd.2 h2]

theorem code_mapping_mem (mapping : List MappingRow) (k v : String)
    (h : code_mapping mapping k = some v) :
    ∃ row ∈ mapping, row.old_code = k ∧ row.new_code = v := by
  have hmem := dlookup_mem k v _ h
  rcases List.mem_map.mp hmem with ⟨row, hrow, heq⟩
  have h1 : row.old_code = k := by
    have := congrArg Prod.fst heq
    simpa using this
  have h2 : row.new_code = v := by
    have := congrArg Prod.snd heq
    simpa using this
  exact ⟨row, hrow, h1, h2⟩

theorem code_mapping_value_ne_empty (mapping : List MappingRow) (k v : String)
    (hne : ∀ r ∈ mapping, r.new_code ≠ "") (h : code_mapping mapping k = some v) :
    v ≠ "" := by
  obtain ⟨row, hrow, _, hv⟩ := code_mapping_mem mapping k v h
  rw [← hv]
  exact hne row hrow

theorem reverse_mapping_mem (mapping : List MappingRow) (c old : String)
    (h : reverse_code_mapping mapping c = some old) :
    ∃ row ∈ mapping, row.new_code = c ∧ row.old_code = old := by
  have hmem := dlookup_mem c old _ h
  rcases List.mem_filterMap.mp hmem with ⟨row, hrow, hval⟩
  by_cases hb : row.new_code ≠ ""
  · rw [if_pos hb] at hval
    have h1 : row.new_code = c := by
      have := congrArg Prod.fst (Option.some.inj hval)
      simpa using this
    have h2 : row.old_code = old := by
      have := congrArg Prod.snd (Option.some.inj hval)
      simpa using this
    exact ⟨row, hrow, h1, h2⟩
  · rw [if_neg hb] at hval
    cases hval

theorem code_mapping_isSome_of_row (mapping : List MappingRow) (row : MappingRow)
    (hrow : row ∈ mapping) : (code_mapping mapping row.old_code).isSome := by
  refine dlookup_isSome_of_key _ _ ?_
  rw [List.map_map]
  exact List.mem_map.mpr ⟨row, hrow, rfl⟩

theorem name_mapping_none_iff (mapping : List MappingRow) (k : String) :
    name_mapping mapping k = none ↔ code_mapping mapping k = none := by
  unfold name_mapping code_mapping
  rw [dlookup_eq_none_iff, dlookup_eq_none_iff]
  constructor
  · intro h p hp
    rcases List.mem_map.mp hp with ⟨row, hrow, heq⟩
    have := h (row.old_code, row.new_name) (List.mem_map.mpr ⟨row, hrow, rfl⟩)
    rw [← heq]
    simpa using this
  · intro h p hp
    rcases List.mem_map.mp hp with ⟨row, hrow, heq⟩
    have := h (row.old_code, row.new_code) (List.mem_map.mpr ⟨row, hrow, rfl⟩)
    rw [← heq]
    simpa using this

theorem code_rev_roundtrip (mapping : List MappingRow) (c old : String)
    (hnd : (mapping.map fun r => r.old_code).Nodup)
    (h : reverse_code_mapping mapping c = some old) :
    code_mapping mapping old = some c := by
  obtain ⟨row, hrow, hnew, hold⟩ := reverse_mapping_mem mapping c old h
  refine dlookup_nodup old c _ ?_ ?_
  · rw [List.map_map]
    exact hnd
  · exact List.mem_map.mpr ⟨row, hrow, by rw [hold, hnew]⟩

theorem phase2_preserves (m : List MappingRow) (s : RState) :
    (phase2 m s).exactM = s.exactM ∧ (phase2 m s).code = s.code ∧
    (phase2 m s).name = s.name ∧ (phase2 m s).fuzM = s.fuzM := by
  unfold phase2
  by_cases hb : isBlank s.newCode
  · rw [if_pos hb]
    cases hsc : s.code with
    | none => exact ⟨rfl, hsc, rfl, rfl⟩
    | some c =>
      dsimp only
      by_cases hc : c = ""
      · rw [if_pos hc]
        exact ⟨rfl, hsc, rfl, rfl⟩
      · rw [if_neg hc]
        cases reverse_code_mapping m c with
        | none => exact ⟨rfl, hsc, rfl, rfl⟩
        | some old => exact ⟨rfl, rfl, rfl, rfl⟩
  · rw [if_neg hb]
    exact ⟨rfl, rfl, rfl, rfl⟩

theorem phase2_id_or_set (m : List MappingRow) (s : RState) :
    phase2 m s = s ∨
      (isBlank s.newCode = true ∧ ∃ c old, s.code = some c ∧ c ≠ "" ∧
        reverse_code_mapping m c = some old ∧
        phase2 m s = { s with
          newCode := some ((code_mapping m old).getD ""),
          newName := some ((name_mapping m old).getD ""),
          revM := true }) := by
  unfold phase2
  by_cases hb : isBlank s.newCode
  · rw [if_pos hb]
    cases hsc : s.code with
    | none => exact Or.inl rfl
    | some c =>
      dsimp only
      by_cases hc : c = ""
      · rw [if_pos hc]
        exact Or.inl rfl
      · rw [if_neg hc]
        cases hrev : reverse_code_mapping m c with
        | none => exact Or.inl rfl
        | some old => exact Or.inr ⟨hb, c, old, rfl, hc, hrev, rfl⟩
  · rw [if_neg hb]
    exact Or.inl rfl

theorem phase3_preserves (m : List MappingRow) (s : RState) :
    (phase3 m s).exactM = s.exactM ∧ (phase3 m s).code = s.code ∧
    (phase3 m s).name = s.name ∧ (phase3 m s).revM = s.revM := by
  unfold phase3
  by_cases hb : isBlank s.newCode
  · rw [if_pos hb]
    cases hsc : s.code with
    | none => exact ⟨rfl, hsc, rfl, rfl⟩
    | some c =>
      dsimp only
      by_cases hc : c = ""
      · rw [if_pos hc]
        exact ⟨rfl, hsc, rfl, rfl⟩
      · rw [if_neg hc]
        cases (_find_closest_match c m).1 with
        | none => exact ⟨rfl, hsc, rfl, rfl⟩
        | some bm =>
          dsimp only
          by_cases hbm : bm = ""
          · rw [if_pos hbm]
            exact ⟨rfl, hsc, rfl, rfl⟩
          · rw [if_neg hbm]
            exact ⟨rfl, rfl, rfl, rfl⟩
  · rw [if_neg hb]
    exact ⟨rfl, rfl, rfl, rfl⟩

theorem phase3_id_or_set (m : List MappingRow) (s : RState) :
    phase3 m s = s ∨
      (isBlank s.newCode = true ∧ ∃ c bm, s.code = some c ∧ c ≠ "" ∧
        (_find_closest_match c m).1 = some bm ∧ bm ≠ "" ∧
        phase3 m s = { s with
          newCode := some ((code_mapping m bm).getD ""),
          newName := some ((name_mapping m bm).getD ""),
          fuzM := true }) := by
  unfold phase3
  by_cases hb : isBlank s.newCode
  · rw [if_pos hb]
    cases hsc : s.code with
    | none => exact Or.inl rfl
    | some c =>
      dsimp only
      by_cases hc : c = ""
      · rw [if_pos hc]
        exact Or.inl rfl
      · rw [if_neg hc]
        cases hfm : (_find_closest_match c m).1 with
        | none => exact Or.inl rfl
        | some bm =>
          dsimp only
          by_cases hbm : bm = ""
          · rw [if_pos hbm]
            exact Or.inl rfl
          · rw [if_neg hbm]
            exact Or.inr ⟨hb, c, bm, rfl, hc, hfm, hbm, rfl⟩
  · rw [if_neg hb]
    exact Or.inl rfl

theorem writeBack_preserves (hn : Bool) (s : RState) :
    (writeBack hn s).exactM = s.exactM ∧ (writeBack hn s).revM = s.revM ∧
    (writeBack hn s).fuzM = s.fuzM := by
  unfold writeBack
  cases hnc : s.newCode <;> cases hn <;> dsimp only <;> (try split_ifs) <;>
    (try (cases hnn : s.newName <;> dsimp only <;> (try split_ifs))) <;>
    exact ⟨rfl, rfl, rfl⟩

theorem writeBack_of_none (hn : Bool) (s : RState) (hc : s.newCode = none)
    (hm : s.newName = none) : writeBack hn s = s := by
  unfold writeBack
  rw [hc]
  dsimp only
  rw [hm]
  cases hn
  · rfl
  · simp only [eq_self_iff_true, if_true]

theorem writeBack_code_of_some (hn : Bool) (s : RState) (v : String)
    (hc : s.newCode = some v) (hv : v ≠ "") : (writeBack hn s).code = some v := by
  unfold writeBack
  rw [hc]
  dsimp only
  rw [if_pos hv]
  cases hn
  · rfl
  · simp only [eq_self_iff_true, if_true]
    cases hnn : s.newName with
    | none => rfl
    | some w =>
      dsimp only
      by_cases hw : w ≠ ""
      · rw [if_pos hw]
      · rw [if_neg hw]

/-- Characterization of a successful `process_to_buffer` run: per-record
composite of the three phases and the write-back, with the three counts
taken at their respective stages. -/
theorem process_eq (cols : List String) (mapping : List MappingRow)
    (records : List DataRecord) (hm : "Mã hàng" ∈ cols) :
    process_to_buffer cols mapping records =
      Except.ok
        (records.map fun r =>
          writeBack (decide ("Tên hàng" ∈ cols))
            (phase3 mapping (phase2 mapping (phase1 mapping r))),
         ⟨(records.countP fun r => (phase1 mapping r).exactM) +
            (records.countP fun r => (phase2 mapping (phase1 mapping r)).revM) +
            (records.countP fun r => (phase3 mapping (phase2 mapping (phase1 mapping r))).fuzM),
          records.length,
          records.countP fun r => (phase1 mapping r).exactM,
          records.countP fun r => (phase2 mapping (phase1 mapping r)).revM,
          records.countP fun r => (phase3 mapping (phase2 mapping (phase1 mapping r))).fuzM⟩) := by
  unfold process_to_buffer
  rw [if_pos hm]
  simp only [List.map_map, List.countP_map, Function.comp]
  rfl

theorem phase1_newCode (m : List MappingRow) (r : DataRecord) :
    (phase1 m r).newCode = r.code.bind (code_mapping m) := rfl

theorem phase1_newName (m : List MappingRow) (r : DataRecord) :
    (phase1 m r).newName = r.code.bind (name_mapping m) := rfl

theorem phase1_code (m : List MappingRow) (r : DataRecord) :
    (phase1 m r).code = r.code := rfl

theorem phase1_name (m : List MappingRow) (r : DataRecord) :
    (phase1 m r).name = r.name := rfl

theorem phase1_exactM (m : List MappingRow) (r : DataRecord) :
    (phase1 m r).exactM = (r.code.bind (code_mapping m)).isSome := rfl

theorem phase1_revM (m : List MappingRow) (r : DataRecord) :
    (phase1 m r).revM = false := rfl

theorem phase1_fuzM (m : List MappingRow) (r : DataRecord) :
    (phase1 m r).fuzM = false := rfl

theorem phase2_of_nonblank (m : List MappingRow) (s : RState)
    (h : isBlank s.newCode = false) : phase2 m s = s := by
  unfold phase2
  rw [h]
  rfl

theorem phase3_of_nonblank (m : List MappingRow) (s : RState)
    (h : isBlank s.newCode = false) : phase3 m s = s := by
  unfold phase3
  rw [h]
  rfl

theorem isBlank_some_ne (v : String) (hv : v ≠ "") : isBlank (some v) = false := by
  simp [isBlank, hv]

/-- Provided every mapping row has a non-empty `new_code`, each record is
counted by at most one of the three phases. -/
theorem per_record_partition (m : List MappingRow) (hn : Bool) (r : DataRecord)
    (hne : ∀ row ∈ m, row.new_code ≠ "") :
    (writeBack hn (phase3 m (phase2 m (phase1 m r)))).exactM.toNat +
    (writeBack hn (phase3 m (phase2 m (phase1 m r)))).revM.toNat +
    (writeBack hn (phase3 m (phase2 m (phase1 m r)))).fuzM.toNat ≤ 1 := by
  obtain ⟨ew, rw2, fw⟩ := writeBack_preserves hn (phase3 m (phase2 m (phase1 m r)))
  obtain ⟨e3, _, _, r3⟩ := phase3_preserves m (phase2 m (phase1 m r))
  obtain ⟨e2, _, _, _⟩ := phase2_preserves m (phase1 m r)
  rw [ew, rw2, fw, e3, r3, e2]
  by_cases hex : (phase1 m r).exactM = true
  · -- exact-matched: the mapped value is non-empty, later phases skip
    rw [phase1_exactM] at hex
    obtain ⟨v, hv⟩ := Option.isSome_iff_exists.mp hex
    have hvne : v ≠ "" := by
      cases hrc : r.code with
      | none => rw [hrc] at hv; cases hv
      | some c =>
        rw [hrc, Option.some_bind] at hv
        exact code_mapping_value_ne_empty m c v hne hv
    have hblank : isBlank (phase1 m r).newCode = false := by
      rw [phase1_newCode, hv]
      exact isBlank_some_ne v hvne
    rw [phase2_of_nonblank m _ hblank, phase3_of_nonblank m _ hblank]
    rw [phase1_revM, phase1_fuzM, phase1_exactM, hex]
    simp
  · have hexf : (phase1 m r).exactM = false := by
      revert hex; cases (phase1 m r).exactM <;> simp
    rcases phase2_id_or_set m (phase1 m r) with hid2 |
      ⟨hb2, c, old, hcode, hcne, hrev, hset2⟩
    · rw [hid2]
      rcases phase3_id_or_set m (phase1 m r) with hid3 |
        ⟨hb3, c, bm, hsc3, hcne3, hfm3, hbm3, hset3⟩
      · rw [hid3, hexf, phase1_revM, phase1_fuzM]
        simp
      · rw [hset3, hexf, phase1_revM]
        simp
    · rw [hset2]
      obtain ⟨row, hrow, hnew, holdc⟩ := reverse_mapping_mem m c old hrev
      have hsome : (code_mapping m old).isSome := by
        rw [← holdc]
        exact code_mapping_isSome_of_row m row hrow
      obtain ⟨w, hw⟩ := Option.isSome_iff_exists.mp hsome
      have hwne : w ≠ "" := code_mapping_value_ne_empty m old w hne hw
      have hgetd : (code_mapping m old).getD "" = w := by rw [hw]; rfl
      have hblank2 : isBlank ({ phase1 m r with
          newCode := some ((code_mapping m old).getD ""),
          newName := some ((name_mapping m old).getD ""),
          revM := true } : RState).newCode = false := by
        show isBlank (some ((code_mapping m old).getD "")) = false
        rw [hgetd]
        exact isBlank_some_ne w hwne
      rw [phase3_of_nonblank m _ hblank2]
      show (phase1 m r).exactM.toNat + Bool.true.toNat + (phase1 m r).fuzM.toNat ≤ 1
      rw [hexf, phase1_fuzM]
      simp

/-- A record counted by no phase keeps its original code and name cells
through the write-back. -/
theorem per_record_frame (m : List MappingRow) (hn : Bool) (r : DataRecord)
    (hex : (writeBack hn (phase3 m (phase2 m (phase1 m r)))).exactM = false)
    (hrev : (writeBack hn (phase3 m (phase2 m (phase1 m r)))).revM = false)
    (hfuz : (writeBack hn (phase3 m (phase2 m (phase1 m r)))).fuzM = false) :
    (writeBack hn (phase3 m (phase2 m (phase1 m r)))).code = r.code ∧
    (writeBack hn (phase3 m (phase2 m (phase1 m r)))).name = r.name := by
  obtain ⟨ew, rw2, fw⟩ := writeBack_preserves hn (phase3 m (phase2 m (phase1 m r)))
  obtain ⟨e3, _, _, r3⟩ := phase3_preserves m (phase2 m (phase1 m r))
  obtain ⟨e2, _, _, _⟩ := phase2_preserves m (phase1 m r)
  rw [ew, e3, e2] at hex
  rw [rw2, r3] at hrev
  rw [fw] at hfuz
  -- phase 1 left the helper columns blank
  have hnc : (phase1 m r).newCode = none := by
    rw [phase1_newCode]
    rw [phase1_exactM] at hex
    cases hb : r.code.bind (code_mapping m) with
    | none => rfl
    | some v => rw [hb] at hex; cases hex
  have hnn : (phase1 m r).newName = none := by
    rw [phase1_newName]
    cases hrc : r.code with
    | none => rfl
    | some c =>
      rw [Option.some_bind]
      rw [phase1_newCode, hrc, Option.some_bind] at hnc
      exact (name_mapping_none_iff m c).mpr hnc
  -- phase 2 did nothing
  have hid2 : phase2 m (phase1 m r) = phase1 m r := by
    rcases phase2_id_or_set m (phase1 m r) with hid | ⟨_, c, old, _, _, _, hset⟩
    · exact hid
    · rw [hset] at hrev
      cases hrev
  rw [hid2] at hfuz ⊢
  -- phase 3 did nothing
  have hid3 : phase3 m (phase1 m r) = phase1 m r := by
    rcases phase3_id_or_set m (phase1 m r) with hid | ⟨_, c, bm, _, _, _, _, hset⟩
    · exact hid
    · rw [hset] at hfuz
      cases hfuz
  rw [hid3]
  rw [writeBack_of_none hn _ hnc hnn]
  exact ⟨phase1_code m r, phase1_name m r⟩

/-- With pairwise-distinct `old_code` values, a reverse-matched record's
written-back code equals the code it already had. -/
theorem per_record_rev (m : List MappingRow) (hn : Bool) (r : DataRecord)
    (hnd : (m.map fun row => row.old_code).Nodup)
    (hrev : (writeBack hn (phase3 m (phase2 m (phase1 m r)))).revM = true) :
    (writeBack hn (phase3 m (phase2 m (phase1 m r)))).code = r.code := by
  obtain ⟨ew, rw2, fw⟩ := writeBack_preserves hn (phase3 m (phase2 m (phase1 m r)))
  obtain ⟨e3, _, _, r3⟩ := phase3_preserves m (phase2 m (phase1 m r))
  rw [rw2, r3] at hrev
  rcases phase2_id_or_set m (phase1 m r) with hid | ⟨hb2, c, old, hcode, hcne, hrevmap, hset2⟩
  · rw [hid, phase1_revM] at hrev
    cases hrev
  · have hround : code_mapping m old = some c := code_rev_roundtrip m c old hnd hrevmap
    have hgetd : (code_mapping m old).getD "" = c := by rw [hround]; rfl
    have hblank2 : isBlank ({ phase1 m r with
        newCode := some ((code_mapping m old).getD ""),
        newName := some ((name_mapping m old).getD ""),
        revM := true } : RState).newCode = false := by
      show isBlank (some ((code_mapping m old).getD "")) = false
      rw [hgetd]
      exact isBlank_some_ne c hcne
    rw [hset2, phase3_of_nonblank m _ hblank2]
    have hcode' : ({ phase1 m r with
        newCode := some ((code_mapping m old).getD ""),
        newName := some ((name_mapping m old).getD ""),
        revM := true } : RState).newCode = some c := by
      show some ((code_mapping m old).getD "") = some c
      rw [hgetd]
    rw [writeBack_code_of_some hn _ c hcode' hcne]
    show some c = r.code
    rw [← phase1_code m r, hcode]

theorem countP_three_le_length {α : Type} (p q w : α → Bool) (l : List α)
    (h : ∀ x ∈ l, (p x).toNat + (q x).toNat + (w x).toNat ≤ 1) :
    l.countP p + l.countP q + l.countP w ≤ l.length := by
  induction l with
  | nil => simp
  | cons x xs ih =>
    simp only [List.countP_cons, List.length_cons]
    have hx := h x (List.mem_cons_self x xs)
    have hxs := ih fun y hy => h y (List.mem_cons_of_mem x hy)
    cases hp : p x <;> cases hq : q x <;> cases hw : w x <;>
      simp [hp, hq, hw] at hx ⊢ <;> omega

theorem countP_out_exact (m : List MappingRow) (hn : Bool) (records : List DataRecord) :
    ((records.map fun r => writeBack hn (phase3 m (phase2 m (phase1 m r)))).countP
        fun s => s.exactM) =
      records.countP fun r => (phase1 m r).exactM := by
  rw [List.countP_map]
  have hfun : ((fun s : RState => s.exactM) ∘
      fun r => writeBack hn (phase3 m (phase2 m (phase1 m r)))) =
      fun r => (phase1 m r).exactM := by
    funext r
    show (writeBack hn (phase3 m (phase2 m (phase1 m r)))).exactM = (phase1 m r).exactM
    rw [(writeBack_preserves hn _).1, (phase3_preserves m _).1, (phase2_preserves m _).1]
  rw [hfun]

theorem countP_out_rev (m : List MappingRow) (hn : Bool) (records : List DataRecord) :
    ((records.map fun r => writeBack hn (phase3 m (phase2 m (phase1 m r)))).countP
        fun s => s.revM) =
      records.countP fun r => (phase2 m (phase1 m r)).revM := by
  rw [List.countP_map]
  have hfun : ((fun s : RState => s.revM) ∘
      fun r => writeBack hn (phase3 m (phase2 m (phase1 m r)))) =
      fun r => (phase2 m (phase1 m r)).revM := by
    funext r
    show (writeBack hn (phase3 m (phase2 m (phase1 m r)))).revM =
      (phase2 m (phase1 m r)).revM
    rw [(writeBack_preserves hn _).2.1, (phase3_preserves m _).2.2.2]
  rw [hfun]

theorem countP_out_fuz (m : List MappingRow) (hn : Bool) (records : List DataRecord) :
    ((records.map fun r => writeBack hn (phase3 m (phase2 m (phase1 m r)))).countP
        fun s => s.fuzM) =
      records.countP fun r => (phase3 m (phase2 m (phase1 m r))).fuzM := by
  rw [List.countP_map]
  have hfun : ((fun s : RState => s.fuzM) ∘
      fun r => writeBack hn (phase3 m (phase2 m (phase1 m r)))) =
      fun r => (phase3 m (phase2 m (phase1 m r))).fuzM := by
    funext r
    show (writeBack hn (phase3 m (phase2 m (phase1 m r)))).fuzM =
      (phase3 m (phase2 m (phase1 m r))).fuzM
    rw [(writeBack_preserves hn _).2.2]
  rw [hfun]

/-- C1 (amended): provided every mapping row has a non-empty `new_code`
— the hypothesis the counterexample `C1_counterexample` shows is
necessary — every record of a reconciliation run ends in exactly one of
the four states exact-matched / reverse-matched / fuzzy-matched /
unmatched, the three matched counts count the (mutually disjoint) flag
sets of the output records, and the statistics satisfy
`matched = exact + reverse + fuzzy ≤ total` with `total` the record
count; all five fields are natural numbers by construction. -/
theorem C1_partition_amended (cols : List String) (mapping : List MappingRow)
    (records : List DataRecord) (out : List RState) (stats : Stats)
    (hne : ∀ row ∈ mapping, row.new_code ≠ "")
    (hok : process_to_buffer cols mapping records = Except.ok (out, stats)) :
    (∀ s ∈ out,
      s.exactM.toNat + s.revM.toNat + s.fuzM.toNat +
        (if s.exactM = false ∧ s.revM = false ∧ s.fuzM = false then 1 else 0) = 1) ∧
    stats.exact_matched_count = out.countP (fun s => s.exactM) ∧
    stats.reverse_matched_count = out.countP (fun s => s.revM) ∧
    stats.fuzzy_matched_count = out.countP (fun s => s.fuzM) ∧
    stats.matched_count =
      stats.exact_matched_count + stats.reverse_matched_count + stats.fuzzy_matched_count ∧
    stats.matched_count ≤ stats.total_count ∧
    stats.total_count = records.length := by
  have hm : "Mã hàng" ∈ cols := by
    by_contra hm
    unfold process_to_buffer at hok
    rw [if_neg hm] at hok
    cases hok
  rw [process_eq cols mapping records hm] at hok
  have hpair := Except.ok.inj hok
  injection hpair with hout hstats
  subst hout
  subst hstats
  refine ⟨?_, ?_, ?_, ?_, rfl, ?_, rfl⟩
  · intro s hs
    obtain ⟨r, hr, hmap⟩ := List.mem_map.mp hs
    have hsum := per_record_partition mapping (decide ("Tên hàng" ∈ cols)) r hne
    rw [hmap] at hsum
    cases he : s.exactM <;> cases hv : s.revM <;> cases hf : s.fuzM <;>
      rw [he, hv, hf] at hsum <;> simp at hsum ⊢
  · rw [countP_out_exact]
  · rw [countP_out_rev]
  · rw [countP_out_fuz]
  · show _ ≤ records.length
    refine countP_three_le_length _ _ _ records ?_
    intro r hr
    have hsum := per_record_partition mapping (decide ("Tên hàng" ∈ cols)) r hne
    rw [(writeBack_preserves _ _).1, (phase3_preserves mapping _).1,
      (phase2_preserves mapping _).1, (writeBack_preserves _ _).2.1,
      (phase3_preserves mapping _).2.2.2, (writeBack_preserves _ _).2.2] at hsum
    exact hsum

/-- C1 counterexample: a mapping row with an empty `new_code` makes
phase 1 count a record as exact-matched (pandas `notna("")` is true)
while the blank helper value lets phase 2 re-match and re-count the same
record, so the matched counts are not disjoint and
`matched_count = 2 > 1 = total_count`, refuting the claim as stated. -/
theorem C1_counterexample :
    process_to_buffer ["Mã hàng"]
        [⟨"A", "an", "", "no"⟩, ⟨"B", "bn", "A", "nb"⟩] [⟨some "A", none⟩] =
      Except.ok ([⟨some "A", none, some "A", some "nb", true, true, false⟩],
        ⟨2, 1, 1, 1, 0⟩) ∧
    ¬ (2 ≤ 1) :=
  ⟨rfl, by decide⟩

/-- Witness for C1 at a concrete run with a non-empty-new-code mapping. -/
theorem C1_partition_amended_witness :
    (∀ row ∈ [(⟨"A", "an", "X", "N"⟩ : MappingRow)], row.new_code ≠ "") ∧
    process_to_buffer ["Mã hàng"] [⟨"A", "an", "X", "N"⟩] [⟨some "A", some "nm"⟩] =
      Except.ok ([⟨some "X", some "nm", some "X", some "N", true, false, false⟩],
        ⟨1, 1, 1, 0, 0⟩) ∧
    (⟨1, 1, 1, 0, 0⟩ : Stats).matched_count ≤ (⟨1, 1, 1, 0, 0⟩ : Stats).total_count :=
  ⟨by decide, rfl,
    (C1_partition_amended ["Mã hàng"] [⟨"A", "an", "X", "N"⟩] [⟨some "A", some "nm"⟩]
      [⟨some "X", some "nm", some "X", some "N", true, false, false⟩]
      ⟨1, 1, 1, 0, 0⟩ (by decide) rfl).2.2.2.2.2.1⟩

/-- C7: every record that is counted by none of the three phases —
including records with an empty or missing code — keeps its original
code and name cells in the output, unconditionally. -/
theorem C7_unmatched_frame (cols : List String) (mapping : List MappingRow)
    (records : List DataRecord) (out : List RState) (stats : Stats)
    (hok : process_to_buffer cols mapping records = Except.ok (out, stats)) :
    out.length = records.length ∧
    ∀ (i : Nat) (hi : i < records.length) (hi2 : i < out.length),
      (out.get ⟨i, hi2⟩).exactM = false → (out.get ⟨i, hi2⟩).revM = false →
      (out.get ⟨i, hi2⟩).fuzM = false →
      (out.get ⟨i, hi2⟩).code = (records.get ⟨i, hi⟩).code ∧
      (out.get ⟨i, hi2⟩).name = (records.get ⟨i, hi⟩).name := by
  have hm : "Mã hàng" ∈ cols := by
    by_contra hm
    unfold process_to_buffer at hok
    rw [if_neg hm] at hok
    cases hok
  rw [process_eq cols mapping records hm] at hok
  have hpair := Except.ok.inj hok
  injection hpair with hout hstats
  subst hout
  refine ⟨List.length_map records _, ?_⟩
  intro i hi hi2 hex hrev hfuz
  rw [List.get_map] at hex hrev hfuz ⊢
  exact per_record_frame mapping (decide ("Tên hàng" ∈ cols)) (records.get ⟨i, hi⟩)
    hex hrev hfuz

/-- Witness for C7: a record whose code matches nothing is left
untouched by the whole pipeline. -/
theorem C7_unmatched_frame_witness :
    process_to_buffer ["Mã hàng"] [] [⟨some "ZZZ", some "nm"⟩] =
      Except.ok ([⟨some "ZZZ", some "nm", none, none, false, false, false⟩],
        ⟨0, 1, 0, 0, 0⟩) ∧
    (([⟨some "ZZZ", some "nm", none, none, false, false, false⟩] :
        List RState).get ⟨0, Nat.one_pos⟩).code =
      (([⟨some "ZZZ", some "nm"⟩] : List DataRecord).get ⟨0, Nat.one_pos⟩).code :=
  ⟨rfl,
    ((C7_unmatched_frame ["Mã hàng"] [] [⟨some "ZZZ", some "nm"⟩]
      [⟨some "ZZZ", some "nm", none, none, false, false, false⟩] ⟨0, 1, 0, 0, 0⟩ rfl).2
      0 Nat.one_pos Nat.one_pos rfl rfl rfl).1⟩

/-- C2 counterexample: with two mapping rows sharing `old_code = "B"` but
different new codes, the record with code `"X"` is resolved in phase 2
(counted in `reverse_matched_count`), yet `code_mapping` re-derives the
*other* new code `"Y"`, so the record's code field changes — refuting
the claim as stated. -/
theorem C2_counterexample :
    process_to_buffer ["Mã hàng"]
        [⟨"B", "bn", "X", "N1"⟩, ⟨"B", "bn2", "Y", "N2"⟩] [⟨some "X", none⟩] =
      Except.ok ([⟨some "Y", none, some "Y", some "N2", false, true, false⟩],
        ⟨1, 1, 0, 1, 0⟩) ∧
    (RState.mk (some "Y") none (some "Y") (some "N2") false true false).revM = true ∧
    (RState.mk (some "Y") none (some "Y") (some "N2") false true false).code ≠
      (DataRecord.mk (some "X") none).code :=
  ⟨rfl, rfl, by decide⟩

/-- C2 (amended): provided the mapping rows have pairwise-distinct
`old_code` values — the hypothesis `C2_counterexample` shows is
necessary — every record resolved in phase 2 has its written-back code
equal to the code it already held, and `reverse_matched_count` counts
exactly the phase-2-flagged output records. -/
theorem C2_reverse_amended (cols : List String) (mapping : List MappingRow)
    (records : List DataRecord) (out : List RState) (stats : Stats)
    (hnd : (mapping.map fun row => row.old_code).Nodup)
    (hok : process_to_buffer cols mapping records = Except.ok (out, stats)) :
    stats.reverse_matched_count = out.countP (fun s => s.revM) ∧
    out.length = records.length ∧
    ∀ (i : Nat) (hi : i < records.length) (hi2 : i < out.length),
      (out.get ⟨i, hi2⟩).revM = true →
      (out.get ⟨i, hi2⟩).code = (records.get ⟨i, hi⟩).code := by
  have hm : "Mã hàng" ∈ cols := by
    by_contra hm
    unfold process_to_buffer at hok
    rw [if_neg hm] at hok
    cases hok
  rw [process_eq cols mapping records hm] at hok
  have hpair := Except.ok.inj hok
  injection hpair with hout hstats
  subst hout
  subst hstats
  refine ⟨(countP_out_rev mapping (decide ("Tên hàng" ∈ cols)) records).symm,
    List.length_map records _, ?_⟩
  intro i hi hi2 hrev
  rw [List.get_map] at hrev ⊢
  exact per_record_rev mapping (decide ("Tên hàng" ∈ cols)) (records.get ⟨i, hi⟩) hnd hrev

/-- Witness for C2 at a duplicate-free mapping: the reverse-matched
record keeps its code `"X"`. -/
theorem C2_reverse_amended_witness :
    ((([⟨"B", "bn", "X", "N"⟩] : List MappingRow).map fun row => row.old_code).Nodup) ∧
    process_to_buffer ["Mã hàng"] [⟨"B", "bn", "X", "N"⟩] [⟨some "X", none⟩] =
      Except.ok ([⟨some "X", none, some "X", some "N", false, true, false⟩],
        ⟨1, 1, 0, 1, 0⟩) ∧
    (([⟨some "X", none, some "X", some "N", false, true, false⟩] :
        List RState).get ⟨0, Nat.one_pos⟩).code =
      (([⟨some "X", none⟩] : List DataRecord).get ⟨0, Nat.one_pos⟩).code :=
  ⟨by decide, rfl,
    (C2_reverse_amended ["Mã hàng"] [⟨"B", "bn", "X", "N"⟩] [⟨some "X", none⟩]
      [⟨some "X", none, some "X", some "N", false, true, false⟩] ⟨1, 1, 0, 1, 0⟩
      (by decide) rfl).2.2 0 Nat.one_pos Nat.one_pos rfl⟩

/-- C8: reconciliation is deterministic — the embedding is a pure
function of the two tables and the header list alone (Python dict
iteration is insertion-ordered and modelled here as ordered association
lists in spreadsheet row order, and the mapping table is iterated in row
order), so equal inputs give identical output tables and statistics. -/
theorem C8_deterministic (cols cols2 : List String) (mapping mapping2 : List MappingRow)
    (records records2 : List DataRecord)
    (h1 : cols = cols2) (h2 : mapping = mapping2) (h3 : records = records2) :
    process_to_buffer cols mapping records = process_to_buffer cols2 mapping2 records2 := by
  rw [h1, h2, h3]

/-- Witness for C8: two runs on the same concrete inputs coincide. -/
theorem C8_deterministic_witness :
    process_to_buffer ["Mã hàng"] [⟨"A", "an", "X", "N"⟩] [⟨some "A", none⟩] =
      process_to_buffer ["Mã hàng"] [⟨"A", "an", "X", "N"⟩] [⟨some "A", none⟩] :=
  C8_deterministic ["Mã hàng"] ["Mã hàng"] [⟨"A", "an", "X", "N"⟩] [⟨"A", "an", "X", "N"⟩]
    [⟨some "A", none⟩] [⟨some "A", none⟩] rfl rfl rfl

/-- C10: whenever the data-file loader returns without raising, the
returned header list contains the canonical code column `"Mã hàng"`
(either present originally or renamed into place), so the guard inside
`process_to_buffer` takes its true branch and every successful call
returns a statistics record with all five fields defined (and the
documented relations between them). -/
theorem C10_load_gives_code_column (cols cols2 : List String)
    (hok : _load_data_file_cols cols = Except.ok cols2) :
    "Mã hàng" ∈ cols2 ∧
    ∀ (mapping : List MappingRow) (records : List DataRecord),
      ∃ out stats, process_to_buffer cols2 mapping records = Except.ok (out, stats) ∧
        stats.matched_count = stats.exact_matched_count + stats.reverse_matched_count +
          stats.fuzzy_matched_count ∧
        stats.total_count = records.length := by
  have hmem := load_cols_has_code cols cols2 hok
  refine ⟨hmem, ?_⟩
  intro mapping records
  exact ⟨_, _, process_eq cols2 mapping records hmem, rfl, rfl⟩

/-- Witness for C10: loading a file whose headers are exactly
`["Mã hàng"]` succeeds unchanged, and processing then succeeds. -/
theorem C10_load_gives_code_column_witness :
    _load_data_file_cols ["Mã hàng"] = Except.ok ["Mã hàng"] ∧
    "Mã hàng" ∈ (["Mã hàng"] : List String) ∧
    ∃ out stats, process_to_buffer ["Mã hàng"] [] [] = Except.ok (out, stats) := by
  have h := C10_load_gives_code_column ["Mã hàng"] ["Mã hàng"] rfl
  refine ⟨rfl, h.1, ?_⟩
  obtain ⟨out, stats, hrun, _, _⟩ := h.2 [] []
  exact ⟨out, stats, hrun⟩
